import Mathlib

/-!
# Text nodes of a document tree: split, whole text, replace whole text

A shallow embedding of `WebCore/dom/Text.cpp` (`Text::splitText`,
`earliestLogicallyAdjacentTextNode`, `latestLogicallyAdjacentTextNode`,
`Text::wholeText`, `Text::replaceWholeText`).

Nodes are natural-number identities.  The tree is a store: each container owns an
ordered child list, each node has a non-owning parent link, and the sibling links
are looked up in the parent's child list.  Character data is a list of code units.
`unsigned` offsets and lengths are natural numbers; the code only compares them.
The calls the operators make on their collaborators are recorded in a trace.
-/

namespace WebCore

/-! ## Data model -/

/-- Modelled from the spec: the errors of the container's `insertBefore` (ContainerNode is
not among the sources): the parent rejects the kind of child, or the reference child is
not a child of the parent. -/
inductive InsertionError where
  | HierarchyRequestError
  | NotFoundError
  deriving DecidableEq, Repr

/-- The `Exception` values `Text::splitText` can return: its own `IndexSizeError`, or the
exception released from the parent's `insertBefore`. -/
inductive Exception where
  | IndexSizeError
  | insertion (e : InsertionError)
  deriving DecidableEq, Repr

/-- Ways a run of the embedded loops can fail to produce a value: the fuel bounding the
loop ran out, or a null pointer would have been dereferenced. -/
inductive Fault where
  | outOfFuel
  | nullDeref
  deriving DecidableEq, Repr

/-- Calls on collaborators (document, renderer, container), in the order made.  A
content-modified notification is dispatched for a node as it is at that moment: it
carries the prior value handed to it and the data the node holds when it is dispatched. -/
inductive Event where
  | contentModified (node : Nat) (oldData newData : List Char)
  | childInserted (parent child : Nat) (ref : Option Nat)
  | insertRejected (parent child : Nat) (e : InsertionError)
  | childRemoved (parent child : Nat)
  | removeRejected (parent child : Nat)
  | textNodeSplit (node : Nat)
  | setTextWithOffset (node : Nat) (text : List Char) (offset len : Nat)
  | textRendererUpdated (node offset len : Nat)
  deriving DecidableEq, Repr

/-- The document tree together with the trace of collaborator calls.
`isText n` is `is<Text>(n)` / `n->isTextNode()`, `data n` is `m_data`, `parent n` is
`parentNode()`, `children p` the ordered child list of `p`, `renderer n` whether
`renderer()` is non-null, `fresh` the identity the next created node receives. -/
structure Dom where
  isText : Nat → Bool
  data : Nat → List Char
  parent : Nat → Option Nat
  children : Nat → List Nat
  renderer : Nat → Bool
  fresh : Nat
  trace : List Event

/-- External code reachable from the operators: whether the parent rejects an insertion,
and the handlers run synchronously after a child removal and after a `setData`. -/
structure Env where
  insertError : Dom → Nat → Nat → Option Nat → Option InsertionError
  onRemove : Nat → Dom → Dom
  onModified : Nat → Dom → Dom

/-- An environment whose container accepts every insertion and whose handlers do nothing. -/
def Env.quiet : Env where
  insertError := fun _ _ _ _ => none
  onRemove := fun _ d => d
  onModified := fun _ d => d

/-- No handler mutates anything. -/
def Env.NoHandlers (env : Env) : Prop :=
  (∀ n d, env.onRemove n d = d) ∧ (∀ n d, env.onModified n d = d)

/-! ## Tree primitives -/

/-- Modelled from the spec: `Node::parentNode()` (Node.h is not among the sources); the
non-owning parent link. -/
def Dom.parentNode (d : Dom) (n : Nat) : Option Nat := d.parent n

/-- Siblings of `n` that precede it in its parent's child list, in order. -/
def Dom.siblingsBefore (d : Dom) (n : Nat) : List Nat :=
  match d.parent n with
  | none => []
  | some p => if n ∈ d.children p then (d.children p).takeWhile (fun x => x != n) else []

/-- Siblings of `n` that follow it in its parent's child list, in order. -/
def Dom.siblingsAfter (d : Dom) (n : Nat) : List Nat :=
  match d.parent n with
  | none => []
  | some p => ((d.children p).dropWhile (fun x => x != n)).drop 1

/-- Modelled from the spec: `Node::previousSibling()` (Node.h is not among the sources);
the sibling just before `n` in the parent's child list, if any. -/
def Dom.previousSibling (d : Dom) (n : Nat) : Option Nat := (d.siblingsBefore n).getLast?

/-- Modelled from the spec: `Node::nextSibling()` (Node.h is not among the sources); the
sibling just after `n` in the parent's child list, if any. -/
def Dom.nextSibling (d : Dom) (n : Nat) : Option Nat := (d.siblingsAfter n).head?

/-- Modelled from the spec: `TextNodeTraversal::nextSibling` (TextNodeTraversal.h is not
among the sources); the first text-bearing sibling after `n`, if any. -/
def TextNodeTraversal.nextSibling (d : Dom) (n : Nat) : Option Nat :=
  (d.siblingsAfter n).find? d.isText

/-- `length()`: the length of the node's data. -/
def Dom.length (d : Dom) (n : Nat) : Nat := (d.data n).length

/-- Child list with `child` placed immediately before `ref`, or at the end for a null `ref`. -/
def insertBeforeIn (child : Nat) (ref : Option Nat) (cs : List Nat) : List Nat :=
  match ref with
  | none => cs ++ [child]
  | some r => cs.takeWhile (fun x => x != r) ++ child :: cs.dropWhile (fun x => x != r)

/-- Modelled from the spec: `ContainerNode::insertBefore(node, refChild) -> Result<void, error>`
(ContainerNode is not among the sources).  The parent either rejects the insertion,
leaving the tree as it is, or links `child` in before `ref`. -/
def insertBefore (env : Env) (parent child : Nat) (ref : Option Nat) (d : Dom) :
    Option InsertionError × Dom :=
  match env.insertError d parent child ref with
  | some e => (some e, { d with trace := d.trace ++ [Event.insertRejected parent child e] })
  | none =>
    (none,
      { d with
        children := fun q => if q = parent then insertBeforeIn child ref (d.children parent)
                             else d.children q
        parent := fun n => if n = child then some parent else d.parent n
        trace := d.trace ++ [Event.childInserted parent child ref] })

/-- Unlinking of `child` from the child list of `parent`, recorded in the trace: what
`removeChild` does to the tree before any handler runs. -/
def Dom.unlink (d : Dom) (parent child : Nat) : Dom :=
  { d with
    children := fun q => if q = parent then (d.children parent).erase child else d.children q
    parent := fun n => if n = child then none else d.parent n
    trace := d.trace ++ [Event.childRemoved parent child] }

/-- Modelled from the spec: `ContainerNode::removeChild(node) -> Result<void, error>`
(ContainerNode is not among the sources).  A child of `parent` is unlinked and the
removal handler runs; a node that is not a child of `parent` is rejected.  The callers
in Text.cpp discard the result. -/
def removeChild (env : Env) (parent child : Nat) (d : Dom) : Dom :=
  if d.parent child = some parent then env.onRemove child (d.unlink parent child)
  else { d with trace := d.trace ++ [Event.removeRejected parent child] }

/-- The nodes of `run` unlinked from `parent` one after the other, first to last. -/
def Dom.unlinkAll (d : Dom) (parent : Nat) (run : List Nat) : Dom :=
  run.foldl (fun s c => s.unlink parent c) d

/-! ## Character data primitives -/

/-- `Text::virtualCreate(data)`, i.e. `Text::create(document(), data)`: a new text node
with the given data, no parent, no children and no renderer. -/
def virtualCreate (newData : List Char) (d : Dom) : Nat × Dom :=
  (d.fresh,
    { d with
      isText := fun n => if n = d.fresh then true else d.isText n
      data := fun n => if n = d.fresh then newData else d.data n
      parent := fun n => if n = d.fresh then none else d.parent n
      children := fun n => if n = d.fresh then [] else d.children n
      renderer := fun n => if n = d.fresh then false else d.renderer n
      fresh := d.fresh + 1 })

/-- Modelled from the spec: `CharacterData::setDataWithoutUpdate` (CharacterData is not
among the sources); writes the data, notifying nobody. -/
def setDataWithoutUpdate (self : Nat) (newData : List Char) (d : Dom) : Dom :=
  { d with data := fun n => if n = self then newData else d.data n }

/-- Modelled from the spec: `CharacterData::dispatchModifiedEvent(oldData)` (CharacterData
is not among the sources); the content-modified notification for the node, carrying
`oldData` as the prior value and the node's data at the time of the call as the new
value. -/
def dispatchModifiedEvent (self : Nat) (oldData : List Char) (d : Dom) : Dom :=
  { d with trace := d.trace ++ [Event.contentModified self oldData (d.data self)] }

/-- Modelled from the spec: `Document::textNodeSplit(node)` (Document is not among the
sources); the notification that a text node was split. -/
def textNodeSplit (self : Nat) (d : Dom) : Dom :=
  { d with trace := d.trace ++ [Event.textNodeSplit self] }

/-- Modelled from the spec: `RenderText::setTextWithOffset(text, offset, len)` (RenderText
is not among the sources); the in-place update of the render representation. -/
def setTextWithOffset (self : Nat) (text : List Char) (offset len : Nat) (d : Dom) : Dom :=
  { d with trace := d.trace ++ [Event.setTextWithOffset self text offset len] }

/-- Modelled from the spec: `CharacterData::setData` (CharacterData is not among the
sources); the full content-change path: write the data, update the renderer if there is
one, notify, and let the modification handler run. -/
def setData (env : Env) (self : Nat) (newData : List Char) (d : Dom) : Dom :=
  let oldData := d.data self
  env.onModified self
    { d with
      data := fun n => if n = self then newData else d.data n
      trace := d.trace
        ++ (if d.renderer self then [Event.textRendererUpdated self 0 oldData.length] else [])
        ++ [Event.contentModified self oldData newData] }

/-! ## Text.cpp -/

/-- Lines 63-67 of `Text::splitText`: capture `oldData`, create the new node with
`oldData.substring(offset)`, truncate this node to `oldData.substring(0, offset)` without
update, and dispatch the modified event carrying `oldData`. -/
def splitBeforeInsert (self offset : Nat) (d : Dom) : Dom :=
  let oldData := d.data self
  dispatchModifiedEvent self oldData
    (setDataWithoutUpdate self (oldData.take offset) (virtualCreate (oldData.drop offset) d).2)

/-- Lines 75-78 of `Text::splitText`: tell the document about the split and, if this node
has a renderer, update it in place with the old length as the bound. -/
def splitAfterInsert (self oldLength : Nat) (d : Dom) : Dom :=
  let d5 := textNodeSplit self d
  if d5.renderer self then setTextWithOffset self (d5.data self) 0 oldLength d5 else d5

/-- `Text::splitText(unsigned offset)` (Text.cpp lines 57-81).  The event-queue scope opened
on line 62 holds queued events back until the operator has returned, so the state
returned here is the one at the `return` statement. -/
def splitText (env : Env) (self offset : Nat) (d : Dom) : Except Exception Nat × Dom :=
  if offset > d.length self then (Except.error Exception.IndexSizeError, d)
  else
    let oldData := d.data self
    let newText := (virtualCreate (oldData.drop offset) d).1
    let d3 := splitBeforeInsert self offset d
    match d3.parentNode self with
    | some parent =>
      match insertBefore env parent newText (d3.nextSibling self) d3 with
      | (some e, d4) => (Except.error (Exception.insertion e), d4)
      | (none, d4) => (Except.ok newText, splitAfterInsert self oldData.length d4)
    | none => (Except.ok newText, splitAfterInsert self oldData.length d3)

/-- The loop of `earliestLogicallyAdjacentTextNode` (Text.cpp lines 86-90), one iteration
per unit of fuel; `node` and `text` are the two local variables. -/
def earliestLoop (d : Dom) : Nat → Nat → Nat → Except Fault Nat
  | 0, _, _ => Except.error Fault.outOfFuel
  | fuel + 1, node, text =>
    match d.previousSibling node with
    | none => Except.ok text
    | some prev =>
      if !d.isText prev then Except.ok text
      else earliestLoop d fuel prev prev

/-- `earliestLogicallyAdjacentTextNode(text)` (Text.cpp lines 83-92). -/
def earliestLogicallyAdjacentTextNode (d : Dom) (fuel text : Nat) : Except Fault Nat :=
  earliestLoop d fuel text text

/-- The loop of `latestLogicallyAdjacentTextNode` (Text.cpp lines 97-101). -/
def latestLoop (d : Dom) : Nat → Nat → Nat → Except Fault Nat
  | 0, _, _ => Except.error Fault.outOfFuel
  | fuel + 1, node, text =>
    match d.nextSibling node with
    | none => Except.ok text
    | some next =>
      if !d.isText next then Except.ok text
      else latestLoop d fuel next next

/-- `latestLogicallyAdjacentTextNode(text)` (Text.cpp lines 94-103). -/
def latestLogicallyAdjacentTextNode (d : Dom) (fuel text : Nat) : Except Fault Nat :=
  latestLoop d fuel text text

/-- The loop of `Text::wholeText` (Text.cpp lines 113-114): `text` runs from `startText`
until it equals `onePastEndText`; dereferencing a null `text` is a fault. -/
def wholeTextLoop (d : Dom) (onePastEndText : Option Nat) :
    Nat → Option Nat → List Char → Except Fault (List Char)
  | 0, _, _ => Except.error Fault.outOfFuel
  | fuel + 1, text, result =>
    if text = onePastEndText then Except.ok result
    else
      match text with
      | none => Except.error Fault.nullDeref
      | some t => wholeTextLoop d onePastEndText fuel (TextNodeTraversal.nextSibling d t)
          (result ++ d.data t)

/-- `Text::wholeText()` (Text.cpp lines 105-116). -/
def wholeText (d : Dom) (fuel self : Nat) : Except Fault (List Char) :=
  match earliestLogicallyAdjacentTextNode d fuel self with
  | Except.error f => Except.error f
  | Except.ok startText =>
    match latestLogicallyAdjacentTextNode d fuel self with
    | Except.error f => Except.error f
    | Except.ok endText =>
      let onePastEndText := TextNodeTraversal.nextSibling d endText
      wholeTextLoop d onePastEndText fuel (some startText) []

/-- The two removal loops of `Text::replaceWholeText` (Text.cpp lines 128-132 and 136-140).
Both run `n` along next siblings while `n` is non-null, differs from `stop`, is a text
node and still has the captured parent; each iteration reads the next sibling first and
then has the captured parent remove the node.  `stop` is `this` in the first loop and
`onePastEndText` in the second. -/
def removeLoop (env : Env) (parent stop : Option Nat) :
    Nat → Option Nat → Dom → Except Fault Dom
  | 0, _, _ => Except.error Fault.outOfFuel
  | fuel + 1, n, d =>
    match n with
    | none => Except.ok d
    | some nodeToRemove =>
      if some nodeToRemove ≠ stop ∧ d.isText nodeToRemove = true
          ∧ d.parentNode nodeToRemove = parent then
        match parent with
        | none => Except.error Fault.nullDeref
        | some p => removeLoop env parent stop fuel (d.nextSibling nodeToRemove)
            (removeChild env p nodeToRemove d)
      else Except.ok d

/-- Lines 134-150 of `Text::replaceWholeText`: the second removal loop, entered when this
node is not `endText`, then the removal of this node for an empty `newText` or `setData`
otherwise.  `parent` is the parent captured on line 127 and `d1` the tree after the first
loop. -/
def replaceWholeTextTail (env : Env) (parent : Option Nat) (fuel self endText : Nat)
    (newText : List Char) (d1 : Dom) : Except Fault (Option Nat × Dom) :=
  match (if self ≠ endText then
      removeLoop env parent (d1.nextSibling endText) fuel (d1.nextSibling self) d1
    else Except.ok d1) with
  | Except.error f => Except.error f
  | Except.ok d2 =>
    if newText.isEmpty then
      match parent with
      | some p =>
        if d2.parentNode self = some p then Except.ok (none, removeChild env p self d2)
        else Except.ok (none, d2)
      | none => Except.ok (none, d2)
    else Except.ok (some self, setData env self newText d2)

/-- `Text::replaceWholeText(newText)` (Text.cpp lines 118-151).  The result is the returned
pointer (`none` for `nullptr`) and the tree afterwards. -/
def replaceWholeText (env : Env) (fuel self : Nat) (newText : List Char) (d : Dom) :
    Except Fault (Option Nat × Dom) :=
  match earliestLogicallyAdjacentTextNode d fuel self with
  | Except.error f => Except.error f
  | Except.ok startText =>
    match latestLogicallyAdjacentTextNode d fuel self with
    | Except.error f => Except.error f
    | Except.ok endText =>
      let parent := d.parentNode self
      match removeLoop env parent (some self) fuel (some startText) d with
      | Except.error f => Except.error f
      | Except.ok d1 => replaceWholeTextTail env parent fuel self endText newText d1

/-! ## Tree well-formedness around a node -/

/-- Holds when `x` is a text child of `p` whose maximal run of text-bearing siblings is
`run1 ++ x :: run2`, with `a` the siblings before the run and `b` those after it; the
child list has no duplicates and every child's parent link points to `p`. -/
structure Dom.RunAt (d : Dom) (p x : Nat) (a run1 run2 b : List Nat) : Prop where
  children_eq : d.children p = a ++ run1 ++ x :: run2 ++ b
  nodup : (d.children p).Nodup
  parents : ∀ y ∈ d.children p, d.parent y = some p
  text_self : d.isText x = true
  text_run1 : ∀ y ∈ run1, d.isText y = true
  text_run2 : ∀ y ∈ run2, d.isText y = true
  left_boundary : ∀ q ∈ a.getLast?, d.isText q = false
  right_boundary : ∀ q ∈ b.head?, d.isText q = false

/-- Every node whose parent link points to `p` is in the child list of `p`. -/
def Dom.LinkedAt (d : Dom) (p : Nat) : Prop := ∀ y, d.parent y = some p → y ∈ d.children p

/-! ## Handlers used to exercise reentrancy -/

/-- What a handler that deletes `u` does: `u` is unlinked from whatever parent it has. -/
def Dom.detach (d : Dom) (u : Nat) : Dom :=
  match d.parent u with
  | none => d
  | some q =>
    { d with
      children := fun r => if r = q then (d.children q).erase u else d.children r
      parent := fun n => if n = u then none else d.parent n }

/-- What a handler that relocates `u` does: `u` is unlinked from whatever parent it has
and becomes the last child of `q`. -/
def Dom.moveTo (d : Dom) (u q : Nat) : Dom :=
  { d.detach u with
    children := fun r => if r = q then (d.detach u).children q ++ [u]
      else (d.detach u).children r
    parent := fun n => if n = u then some q else (d.detach u).parent n }

/-- An environment whose removal handler runs `act` when `trigger` has been removed and
does nothing otherwise. -/
def Env.onRemoveOf (trigger : Nat) (act : Dom → Dom) : Env where
  insertError := fun _ _ _ _ => none
  onRemove := fun c d => if c = trigger then act d else d
  onModified := fun _ d => d

/-! ## Concrete trees used to evaluate the operators -/

/-- A tree with one container, node `0`, whose children are the nodes `1 .. kids.length`
with the given kinds (text-bearing or not) and data; created nodes start at
`kids.length + 1`. -/
def Dom.ofChildren (kids : List (Bool × List Char)) : Dom where
  isText := fun n => if n = 0 then false else ((kids.get? (n - 1)).map Prod.fst).getD false
  data := fun n => if n = 0 then [] else ((kids.get? (n - 1)).map Prod.snd).getD []
  parent := fun n => if 1 ≤ n ∧ n ≤ kids.length then some 0 else none
  children := fun p => if p = 0 then (List.range kids.length).map (fun i => i + 1) else []
  renderer := fun _ => false
  fresh := kids.length + 1
  trace := []

/-- An environment whose container rejects every insertion and whose handlers do nothing. -/
def Env.rejecting : Env where
  insertError := fun _ _ _ _ => some InsertionError.HierarchyRequestError
  onRemove := fun _ d => d
  onModified := fun _ d => d

/-- One container holding the single text node `1` with data "hello". -/
def helloDom : Dom := Dom.ofChildren [(true, ['h', 'e', 'l', 'l', 'o'])]

/-- One container holding the text node `1` ("hello") followed by the element `2`. -/
def helloBrDom : Dom := Dom.ofChildren [(true, ['h', 'e', 'l', 'l', 'o']), (false, [])]

/-- One container holding the text nodes `1`, `2`, `3` with data "ab", "cd", "ef". -/
def abcdefDom : Dom :=
  Dom.ofChildren [(true, ['a', 'b']), (true, ['c', 'd']), (true, ['e', 'f'])]

/-- One container holding an element, the text nodes "ab", "cd", "ef" and an element:
the nodes `1 .. 5`. -/
def mixedDom : Dom :=
  Dom.ofChildren [(false, []), (true, ['a', 'b']), (true, ['c', 'd']), (true, ['e', 'f']),
    (false, [])]

/-- One container holding the text nodes `1 .. 4` ("ab", "cd", "ef", "gh") followed by the
element `5`. -/
def fourTextDom : Dom :=
  Dom.ofChildren [(true, ['a', 'b']), (true, ['c', 'd']), (true, ['e', 'f']),
    (true, ['g', 'h']), (false, [])]

/-- One text node, `0`, with data "hello" and no parent. -/
def orphanDom : Dom where
  isText := fun n => decide (n = 0)
  data := fun n => if n = 0 then ['h', 'e', 'l', 'l', 'o'] else []
  parent := fun _ => none
  children := fun _ => []
  renderer := fun _ => false
  fresh := 1
  trace := []

/-- Whether a collaborator call links a child into a container. -/
def Event.isChildInsertion : Event → Bool
  | Event.childInserted _ _ _ => true
  | _ => false

/-- Whether a collaborator call is a content-modified notification. -/
def Event.isContentChange : Event → Bool
  | Event.contentModified _ _ _ => true
  | _ => false

/-- Whether a collaborator call updates a render representation. -/
def Event.isRenderUpdate : Event → Bool
  | Event.setTextWithOffset _ _ _ _ => true
  | Event.textRendererUpdated _ _ _ => true
  | _ => false

/-- The tree `helloBrDom` in which the text node `1` has a render representation. -/
def renderedHelloDom : Dom := { helloBrDom with renderer := fun n => decide (n = 1) }

/-- What a handler that inserts `c` into `p` before `ref` does. -/
def Dom.link (d : Dom) (p c : Nat) (ref : Option Nat) : Dom :=
  { d with
    children := fun q => if q = p then insertBeforeIn c ref (d.children p) else d.children q
    parent := fun n => if n = c then some p else d.parent n }

/-- An environment whose removal handler puts every removed child back into `p`, right
before `x`. -/
def Env.reinserting (p x : Nat) : Env where
  insertError := fun _ _ _ _ => none
  onRemove := fun c d => d.link p c (some x)
  onModified := fun _ d => d

/-- Whether a collaborator call is a `removeChild` on a node that is not a child of the
container it was issued on. -/
def Event.isRemoveRejected : Event → Bool
  | Event.removeRejected _ _ => true
  | _ => false

/-! ## Removal handlers that take siblings out of the parent -/

/-- Holds when the child list of `p` has no duplicates and agrees with the parent links: a
node is in the list exactly when its parent link points to `p`. -/
def Dom.WellLinked (d : Dom) (p : Nat) : Prop :=
  (d.children p).Nodup ∧ ∀ y, y ∈ d.children p ↔ d.parent y = some p

/-- Holds when the removal handler, run for the removal of a child `c` of a well-linked
`p`, takes the nodes of `R c` out of `p` (by relocating or deleting them) and does nothing
else to `p`: the other children stay, in their order, no parent link into `p` is added,
and the node kinds and the recorded calls are as before. -/
def Env.TakesOut (env : Env) (p : Nat) (R : Nat → List Nat) : Prop :=
  ∀ c s, s.WellLinked p →
    (env.onRemove c s).children p = (s.children p).filter (fun y => decide (y ∉ R c)) ∧
    (∀ y, (env.onRemove c s).parent y = some p ↔ (s.parent y = some p ∧ y ∉ R c)) ∧
    (env.onRemove c s).isText = s.isText ∧ (env.onRemove c s).trace = s.trace

/-- What a handler that relocates the nodes of `vs` does: each of them is moved into `q`,
first to last. -/
def Dom.moveAll (d : Dom) (vs : List Nat) (q : Nat) : Dom :=
  vs.foldl (fun s v => s.moveTo v q) d

/-- An environment whose removal handler, run for the removal of `c`, relocates the nodes
of `R c` into `q`. -/
def Env.relocating (R : Nat → List Nat) (q : Nat) : Env where
  insertError := fun _ _ _ _ => none
  onRemove := fun c d => d.moveAll (R c) q
  onModified := fun _ d => d

/-- A list-level description of one removal loop, written from the statement of C9
(amended) and not from the code: the siblings of one side that the loop leaves under the
captured parent.  The loop removes the first sibling `t` of the list, and the handler run
by that removal takes the nodes of `R t` out of the parent.  When the sibling that
followed `t` is among them, the loop ends and what is left of the list stays; otherwise
the loop goes on in the same way with what is left of the list, so that siblings taken
out before they are reached are skipped.  The first argument bounds the number of
removals. -/
def leftByLoopAux (R : Nat → List Nat) : Nat → List Nat → List Nat
  | 0, l => l
  | _ + 1, [] => []
  | k + 1, t :: rest =>
    match rest with
    | [] => []
    | u :: _ =>
      if u ∈ R t then rest.filter (fun y => decide (y ∉ R t))
      else leftByLoopAux R k (rest.filter (fun y => decide (y ∉ R t)))

/-- The siblings of the list `l` that a removal loop leaves under the captured parent. -/
def leftByLoop (R : Nat → List Nat) (l : List Nat) : List Nat := leftByLoopAux R l.length l

/-- The companion of `leftByLoopAux`, written from the same statement: the siblings of one
side that the loop removes, in the order of their removal. -/
def removedByLoopAux (R : Nat → List Nat) : Nat → List Nat → List Nat
  | 0, _ => []
  | _ + 1, [] => []
  | k + 1, t :: rest =>
    match rest with
    | [] => [t]
    | u :: _ =>
      if u ∈ R t then [t]
      else t :: removedByLoopAux R k (rest.filter (fun y => decide (y ∉ R t)))

/-- The siblings of the list `l` that a removal loop removes, in the order of their
removal. -/
def removedByLoop (R : Nat → List Nat) (l : List Nat) : List Nat :=
  removedByLoopAux R l.length l

/-- One container holding the text nodes `1 .. 8` ("a" to "h") followed by the element
`9`. -/
def eightTextDom : Dom :=
  Dom.ofChildren [(true, ['a']), (true, ['b']), (true, ['c']), (true, ['d']), (true, ['e']),
    (true, ['f']), (true, ['g']), (true, ['h']), (false, [])]

/-- The siblings relocated on each removal in `eightTextDom`: node `3` when node `1` is
removed, node `7` when node `6` is removed. -/
def eightTextMoves (c : Nat) : List Nat :=
  if c = 1 then [3] else if c = 6 then [7] else []

/-! ## Sibling lookup in a child list -/

theorem takeWhile_ne_split {n : Nat} {pre post : List Nat} (hn : n ∉ pre) :
    (pre ++ n :: post).takeWhile (fun x => x != n) = pre := by
  induction pre with
  | nil => simp
  | cons a pre ih =>
    simp only [List.mem_cons, not_or] at hn
    have ha : a ≠ n := fun h => hn.1 h.symm
    simp [List.takeWhile_cons, ha, ih hn.2]

theorem dropWhile_ne_split {n : Nat} {pre post : List Nat} (hn : n ∉ pre) :
    (pre ++ n :: post).dropWhile (fun x => x != n) = n :: post := by
  induction pre with
  | nil => simp
  | cons a pre ih =>
    simp only [List.mem_cons, not_or] at hn
    have ha : a ≠ n := fun h => hn.1 h.symm
    simp [List.dropWhile_cons, ha, ih hn.2]

theorem nextSibling_of_split {d : Dom} {n : Nat} (p : Nat) (pre post : List Nat)
    (hp : d.parent n = some p) (hc : d.children p = pre ++ n :: post) (hn : n ∉ pre) :
    d.nextSibling n = post.head? := by
  simp [Dom.nextSibling, Dom.siblingsAfter, hp, hc, dropWhile_ne_split hn]

theorem previousSibling_of_split {d : Dom} {n : Nat} (p : Nat) (pre post : List Nat)
    (hp : d.parent n = some p) (hc : d.children p = pre ++ n :: post) (hn : n ∉ pre) :
    d.previousSibling n = pre.getLast? := by
  simp [Dom.previousSibling, Dom.siblingsBefore, hp, hc, takeWhile_ne_split hn]

@[simp] theorem splitBeforeInsert_data (self offset : Nat) (d : Dom) (n : Nat) :
    (splitBeforeInsert self offset d).data n =
      if n = self then (d.data self).take offset
      else if n = d.fresh then (d.data self).drop offset else d.data n := by
  simp [splitBeforeInsert, dispatchModifiedEvent, setDataWithoutUpdate, virtualCreate]

@[simp] theorem splitBeforeInsert_parent (self offset : Nat) (d : Dom) (n : Nat) :
    (splitBeforeInsert self offset d).parent n = if n = d.fresh then none else d.parent n := by
  simp [splitBeforeInsert, dispatchModifiedEvent, setDataWithoutUpdate, virtualCreate]

@[simp] theorem splitBeforeInsert_children (self offset : Nat) (d : Dom) (n : Nat) :
    (splitBeforeInsert self offset d).children n =
      if n = d.fresh then [] else d.children n := by
  simp [splitBeforeInsert, dispatchModifiedEvent, setDataWithoutUpdate, virtualCreate]

@[simp] theorem splitAfterInsert_data (self len : Nat) (d : Dom) :
    (splitAfterInsert self len d).data = d.data := by
  simp only [splitAfterInsert, textNodeSplit, setTextWithOffset]; split <;> rfl

@[simp] theorem splitAfterInsert_parent (self len : Nat) (d : Dom) :
    (splitAfterInsert self len d).parent = d.parent := by
  simp only [splitAfterInsert, textNodeSplit, setTextWithOffset]; split <;> rfl

@[simp] theorem splitAfterInsert_children (self len : Nat) (d : Dom) :
    (splitAfterInsert self len d).children = d.children := by
  simp only [splitAfterInsert, textNodeSplit, setTextWithOffset]; split <;> rfl

theorem insertBefore_data (env : Env) (p c : Nat) (r : Option Nat) (d : Dom) :
    (insertBefore env p c r d).2.data = d.data := by
  simp only [insertBefore]; split <;> rfl

/-! ## Split operator -/

/-- C3: for every text node and every offset greater than its length, `splitText` returns
`IndexSizeError` and the whole state (data, child lists, parent links, trace) is the one
it was given; conversely `IndexSizeError` is returned only when the offset exceeds the
length. -/
theorem splitText_index_size_error (env : Env) (d : Dom) (self offset : Nat) :
    (offset > d.length self →
        splitText env self offset d = (Except.error Exception.IndexSizeError, d)) ∧
      ((splitText env self offset d).1 = Except.error Exception.IndexSizeError →
        offset > d.length self) := by
  constructor
  · intro h
    simp [splitText, h]
  · intro h
    by_contra hle
    simp only [splitText, hle, if_false, Dom.parentNode] at h
    split at h
    · split at h <;> simp at h
    · simp at h

/-- C1 (amended): for every existing text node and every offset up to its length, after
`splitText` the node holds `original[0:offset]`; the call either succeeds, returning the
new node, which holds `original[offset:]`, or returns the error with which the parent's
`insertBefore` failed; it succeeds whenever the node has no parent. -/
theorem splitText_data (env : Env) (d : Dom) (self offset : Nat)
    (hself : self < d.fresh) (hoff : offset ≤ d.length self) :
    (splitText env self offset d).2.data self = (d.data self).take offset ∧
    (((splitText env self offset d).1 = Except.ok d.fresh ∧
        (splitText env self offset d).2.data d.fresh = (d.data self).drop offset) ∨
      ∃ p e, d.parent self = some p ∧
        (insertBefore env p d.fresh ((splitBeforeInsert self offset d).nextSibling self)
          (splitBeforeInsert self offset d)).1 = some e ∧
        (splitText env self offset d).1 = Except.error (Exception.insertion e)) ∧
    (d.parent self = none → (splitText env self offset d).1 = Except.ok d.fresh) := by
  have hle : ¬ offset > d.length self := by omega
  have hne : self ≠ d.fresh := by omega
  have hne' : d.fresh ≠ self := by omega
  simp only [splitText, hle, if_false, Dom.parentNode, splitBeforeInsert_parent, hne, virtualCreate]
  cases hp : d.parent self with
  | none => simp [hne']
  | some p =>
    simp only []
    cases hi : insertBefore env p d.fresh ((splitBeforeInsert self offset d).nextSibling self)
        (splitBeforeInsert self offset d) with
    | mk r d4 =>
      have hd : d4.data = (splitBeforeInsert self offset d).data := by
        have := insertBefore_data env p d.fresh
          ((splitBeforeInsert self offset d).nextSibling self) (splitBeforeInsert self offset d)
        rw [hi] at this; exact this
      cases r with
      | none => simp [hd, hne']
      | some e => simp [hd, hi]


theorem insertBefore_accept {env : Env} {p c : Nat} {r : Option Nat} {d : Dom}
    (h : (insertBefore env p c r d).1 = none) :
    insertBefore env p c r d =
      (none,
        { d with
          children := fun q => if q = p then insertBeforeIn c r (d.children p) else d.children q
          parent := fun n => if n = c then some p else d.parent n
          trace := d.trace ++ [Event.childInserted p c r] }) := by
  simp only [insertBefore] at h ⊢
  split at h
  · simp at h
  · rename_i he; simp [he]

theorem insertBefore_reject {env : Env} {p c : Nat} {r : Option Nat} {d : Dom}
    {e : InsertionError} (h : (insertBefore env p c r d).1 = some e) :
    insertBefore env p c r d =
      (some e, { d with trace := d.trace ++ [Event.insertRejected p c e] }) := by
  simp only [insertBefore] at h ⊢
  split at h
  · rename_i e1 he; simp at h; subst h; simp [he]
  · simp at h

theorem insertBeforeIn_split {c n : Nat} {pre post : List Nat}
    (hnd : (pre ++ n :: post).Nodup) :
    insertBeforeIn c post.head? (pre ++ n :: post) = pre ++ n :: c :: post := by
  cases post with
  | nil => simp [insertBeforeIn]
  | cons b post =>
    have hb : b ∉ pre ++ [n] := by
      have h2 : ((pre ++ [n]) ++ b :: post).Nodup := by simpa using hnd
      intro hmem
      exact (List.nodup_append.1 h2).2.2 hmem (List.mem_cons_self _ _)
    have e1 : pre ++ n :: b :: post = (pre ++ [n]) ++ b :: post := by simp
    simp only [insertBeforeIn, List.head?_cons, e1, takeWhile_ne_split hb,
      dropWhile_ne_split hb]
    simp

/-- The value of `splitText` for a node in the child list `pre ++ self :: post` of `p`, a
valid offset and an accepted insertion: the new node is linked in right after the
node. -/
theorem splitText_eq_of_accepted (env : Env) (d : Dom) (self offset p : Nat)
    (pre post : List Nat)
    (hoff : offset ≤ d.length self) (hp : d.parent self = some p) (hpa : p < d.fresh)
    (hc : d.children p = pre ++ self :: post) (hnd : (d.children p).Nodup)
    (hfresh : d.fresh ∉ d.children p)
    (hins : (insertBefore env p d.fresh ((splitBeforeInsert self offset d).nextSibling self)
      (splitBeforeInsert self offset d)).1 = none) :
    splitText env self offset d = (Except.ok d.fresh,
      splitAfterInsert self (d.data self).length
        { splitBeforeInsert self offset d with
          children := fun q => if q = p then pre ++ self :: d.fresh :: post
            else (splitBeforeInsert self offset d).children q
          parent := fun n => if n = d.fresh then some p
            else (splitBeforeInsert self offset d).parent n
          trace := (splitBeforeInsert self offset d).trace
            ++ [Event.childInserted p d.fresh post.head?] }) := by
  have hle : ¬ offset > d.length self := by omega
  have hpne : p ≠ d.fresh := by omega
  rw [hc] at hnd hfresh
  have hsp : self ∉ pre := fun hm =>
    (List.nodup_append.1 hnd).2.2 hm (List.mem_cons_self _ _)
  have hne : self ≠ d.fresh := fun h => hfresh (by simp [h])
  have hnx : (splitBeforeInsert self offset d).nextSibling self = post.head? :=
    nextSibling_of_split p pre post
      (by simp [hne, hp]) (by simp [hpne, hc]) hsp
  simp only [splitText, hle, if_false, Dom.parentNode, splitBeforeInsert_parent, hne, hp,
    virtualCreate]
  rw [insertBefore_accept hins, hnx]
  simp only [splitBeforeInsert_children, splitBeforeInsert_parent, hpne, if_false, hc,
    insertBeforeIn_split hnd]

/-- C2: for a text node with a parent, a valid offset and an insertion the parent accepts,
after `splitText` the returned node is the immediate next sibling of the node under the
same parent, and the node's former next sibling (if any) is the immediate next sibling
of the returned node. -/
theorem splitText_next_sibling (env : Env) (d : Dom) (self offset p : Nat)
    (pre post : List Nat)
    (hoff : offset ≤ d.length self) (hp : d.parent self = some p) (hpa : p < d.fresh)
    (hc : d.children p = pre ++ self :: post) (hnd : (d.children p).Nodup)
    (hfresh : d.fresh ∉ d.children p)
    (hins : (insertBefore env p d.fresh ((splitBeforeInsert self offset d).nextSibling self)
      (splitBeforeInsert self offset d)).1 = none) :
    (splitText env self offset d).1 = Except.ok d.fresh ∧
    (splitText env self offset d).2.parent self = some p ∧
    (splitText env self offset d).2.parent d.fresh = some p ∧
    (splitText env self offset d).2.children p = pre ++ self :: d.fresh :: post ∧
    (splitText env self offset d).2.nextSibling self = some d.fresh ∧
    (splitText env self offset d).2.nextSibling d.fresh = d.nextSibling self := by
  rw [splitText_eq_of_accepted env d self offset p pre post hoff hp hpa hc hnd hfresh hins]
  rw [hc] at hnd hfresh
  have hsp : self ∉ pre := fun hm =>
    (List.nodup_append.1 hnd).2.2 hm (List.mem_cons_self _ _)
  have hne : self ≠ d.fresh := fun h => hfresh (by simp [h])
  have hne' : d.fresh ≠ self := fun h => hne h.symm
  have hfp : d.fresh ∉ pre := fun hm => hfresh (by simp [hm])
  have hfs : d.fresh ∉ pre ++ [self] := by simp [hfp, hne']
  refine ⟨rfl, ?_, ?_, ?_, ?_, ?_⟩
  · simp [hne, hp]
  · simp
  · simp
  · exact (nextSibling_of_split p pre (d.fresh :: post)
      (by simp [hne, hp]) (by simp) hsp).trans rfl
  · have e1 : pre ++ self :: d.fresh :: post = (pre ++ [self]) ++ d.fresh :: post := by simp
    rw [nextSibling_of_split p (pre ++ [self]) post
      (by simp) (by simp) hfs]
    exact (nextSibling_of_split p pre post hp hc hsp).symm

/-- C4: for a text node with a parent and a valid offset, if the parent's `insertBefore`
fails with error `e`, then `splitText` returns exactly `e`, the new node is not in the
parent's child list (which is unchanged) and has no parent, and the node's data is
nevertheless `original[0:offset]`. -/
theorem splitText_insert_failure (env : Env) (d : Dom) (self offset p : Nat)
    (e : InsertionError)
    (hoff : offset ≤ d.length self) (hself : self < d.fresh) (hp : d.parent self = some p)
    (hpa : p < d.fresh) (hfresh : d.fresh ∉ d.children p)
    (hins : (insertBefore env p d.fresh ((splitBeforeInsert self offset d).nextSibling self)
      (splitBeforeInsert self offset d)).1 = some e) :
    (splitText env self offset d).1 = Except.error (Exception.insertion e) ∧
    d.fresh ∉ (splitText env self offset d).2.children p ∧
    (splitText env self offset d).2.children p = d.children p ∧
    (splitText env self offset d).2.parent d.fresh = none ∧
    (splitText env self offset d).2.data self = (d.data self).take offset := by
  have hle : ¬ offset > d.length self := by omega
  have hpne : p ≠ d.fresh := by omega
  have hne : self ≠ d.fresh := by omega
  simp only [splitText, hle, if_false, Dom.parentNode, splitBeforeInsert_parent, hne, hp,
    virtualCreate]
  rw [insertBefore_reject hins]
  simp [hpne, hfresh]

/-- C3 evaluated: splitting "hello" at offset 6 is rejected and changes nothing, while
offset 5 is not rejected. -/
theorem splitText_index_size_error_witness :
    splitText Env.quiet 1 6 helloDom = (Except.error Exception.IndexSizeError, helloDom) ∧
    (splitText Env.quiet 1 5 helloDom).1 ≠ Except.error Exception.IndexSizeError :=
  ⟨(splitText_index_size_error Env.quiet helloDom 1 6).1 (by decide),
    fun h => absurd ((splitText_index_size_error Env.quiet helloDom 1 5).2 h) (by decide)⟩

/-- C1 as stated fails: "hello" split at the valid offset 2 under a parent that rejects the
insertion does not succeed; it returns the parent's error. -/
theorem splitText_valid_offset_not_ok :
    helloDom.isText 1 = true ∧ 2 ≤ helloDom.length 1 ∧
    (splitText Env.rejecting 1 2 helloDom).1 =
      Except.error (Exception.insertion InsertionError.HierarchyRequestError) ∧
    ¬ ∃ newNode, (splitText Env.rejecting 1 2 helloDom).1 = Except.ok newNode := by
  refine ⟨by decide, by decide, rfl, ?_⟩
  rintro ⟨n, h⟩
  exact absurd h (by simp [show (splitText Env.rejecting 1 2 helloDom).1 =
    Except.error (Exception.insertion InsertionError.HierarchyRequestError) from rfl])

/-- C1 (amended) evaluated: "hello" split at 2 leaves "he" in the node, also when the
parent rejects the insertion. -/
theorem splitText_data_witness :
    1 < helloDom.fresh ∧ 2 ≤ helloDom.length 1 ∧
    (splitText Env.rejecting 1 2 helloDom).2.data 1 = ['h', 'e'] :=
  ⟨by decide, by decide, (splitText_data Env.rejecting helloDom 1 2 (by decide) (by decide)).1⟩

/-- C2 evaluated: "hello" followed by an element, split at 2, gives the children
`1, 3, 2` with the new node `3` between the node and its former next sibling. -/
theorem splitText_next_sibling_witness :
    (splitText Env.quiet 1 2 helloBrDom).1 = Except.ok 3 ∧
    (splitText Env.quiet 1 2 helloBrDom).2.children 0 = [1, 3, 2] ∧
    (splitText Env.quiet 1 2 helloBrDom).2.nextSibling 1 = some 3 ∧
    (splitText Env.quiet 1 2 helloBrDom).2.nextSibling 3 = some 2 :=
  have h := splitText_next_sibling Env.quiet helloBrDom 1 2 0 [] [2]
    (by decide) (by decide) (by decide) (by decide) (by decide) (by decide) rfl
  ⟨h.1, h.2.2.2.1, h.2.2.2.2.1, h.2.2.2.2.2.trans (by decide)⟩

/-- C4 evaluated: under a rejecting parent, splitting "hello" at 2 returns the parent's
error, leaves the child list as `1` alone, and leaves "he" in the node. -/
theorem splitText_insert_failure_witness :
    (splitText Env.rejecting 1 2 helloDom).1 =
      Except.error (Exception.insertion InsertionError.HierarchyRequestError) ∧
    (splitText Env.rejecting 1 2 helloDom).2.children 0 = [1] ∧
    (splitText Env.rejecting 1 2 helloDom).2.data 1 = ['h', 'e'] :=
  have h := splitText_insert_failure Env.rejecting helloDom 1 2 0
    InsertionError.HierarchyRequestError
    (by decide) (by decide) (by decide) (by decide) (by decide) rfl
  ⟨h.1, h.2.2.1.trans (by decide), h.2.2.2.2.trans (by decide)⟩

/-! ## Adjacency scanner and whole-text composer -/

theorem nodup_not_mem_left {x : Nat} {pre post : List Nat} (h : (pre ++ x :: post).Nodup) :
    x ∉ pre := fun hm =>
  (List.nodup_append.1 h).2.2 hm (List.mem_cons_self _ _)

theorem nodup_not_mem_right {x : Nat} {pre post : List Nat} (h : (pre ++ x :: post).Nodup) :
    x ∉ post := by
  have h2 := (List.nodup_append.1 h).2.1
  exact (List.nodup_cons.1 h2).1

theorem earliestLoop_run (d : Dom) (p : Nat) (a : List Nat)
    (ha : ∀ q ∈ a.getLast?, d.isText q = false) (run : List Nat) :
    ∀ (x : Nat) (post : List Nat) (fuel : Nat),
      d.children p = a ++ run ++ x :: post → (d.children p).Nodup →
      (∀ y ∈ d.children p, d.parent y = some p) → (∀ y ∈ run, d.isText y = true) →
      run.length < fuel →
      earliestLoop d fuel x x = Except.ok (run.head?.getD x) := by
  induction run using List.reverseRecOn with
  | nil =>
    intro x post fuel hc hnd hpar _ hfuel
    obtain ⟨fuel, rfl⟩ : ∃ k, fuel = k + 1 := ⟨fuel - 1, by simp at hfuel; omega⟩
    have hx : d.parent x = some p := hpar x (by simp [hc])
    simp only [List.append_nil] at hc
    rw [hc] at hnd
    have hprev := previousSibling_of_split p a post hx hc (nodup_not_mem_left hnd)
    simp only [earliestLoop, hprev]
    cases hl : a.getLast? with
    | none => simp
    | some q => simp [ha q (by simp [hl])]
  | append_singleton run y ih =>
    intro x post fuel hc hnd hpar htext hfuel
    obtain ⟨fuel, rfl⟩ : ∃ k, fuel = k + 1 := ⟨fuel - 1, by simp at hfuel; omega⟩
    have hx : d.parent x = some p := hpar x (by simp [hc])
    have hc1 : d.children p = (a ++ run ++ [y]) ++ x :: post := by simp [hc]
    have hnx : x ∉ a ++ run ++ [y] := nodup_not_mem_left (by rw [← hc1]; exact hnd)
    have hprev := previousSibling_of_split p (a ++ run ++ [y]) post hx hc1 hnx
    have hy : d.isText y = true := htext y (by simp)
    have hc2 : d.children p = a ++ run ++ y :: (x :: post) := by simp [hc]
    have := ih y (x :: post) fuel hc2 hnd hpar (fun z hz => htext z (by simp [hz]))
      (by simp at hfuel; omega)
    simp only [earliestLoop, hprev, List.getLast?_concat, hy, this]
    cases run <;> simp

theorem latestLoop_run (d : Dom) (p : Nat) (b : List Nat)
    (hb : ∀ q ∈ b.head?, d.isText q = false) (run : List Nat) :
    ∀ (x : Nat) (pre : List Nat) (fuel : Nat),
      d.children p = pre ++ x :: run ++ b → (d.children p).Nodup →
      (∀ y ∈ d.children p, d.parent y = some p) → (∀ y ∈ run, d.isText y = true) →
      run.length < fuel →
      latestLoop d fuel x x = Except.ok (run.getLast?.getD x) := by
  induction run with
  | nil =>
    intro x pre fuel hc hnd hpar _ hfuel
    obtain ⟨fuel, rfl⟩ : ∃ k, fuel = k + 1 := ⟨fuel - 1, by simp at hfuel; omega⟩
    have hx : d.parent x = some p := hpar x (by simp [hc])
    have hc1 : d.children p = pre ++ x :: b := by simp [hc]
    rw [hc1] at hnd
    have hnext := nextSibling_of_split p pre b hx hc1 (nodup_not_mem_left hnd)
    simp only [latestLoop, hnext]
    cases hl : b.head? with
    | none => simp
    | some q => simp [hb q (by simp [hl])]
  | cons y run ih =>
    intro x pre fuel hc hnd hpar htext hfuel
    obtain ⟨fuel, rfl⟩ : ∃ k, fuel = k + 1 := ⟨fuel - 1, by simp at hfuel; omega⟩
    have hx : d.parent x = some p := hpar x (by simp [hc])
    have hc1 : d.children p = pre ++ x :: (y :: run ++ b) := by simp [hc]
    have hnx : x ∉ pre := nodup_not_mem_left (by rw [← hc1]; exact hnd)
    have hnext := nextSibling_of_split p pre (y :: run ++ b) hx hc1 hnx
    have hy : d.isText y = true := htext y (by simp)
    have hc2 : d.children p = (pre ++ [x]) ++ y :: run ++ b := by simp [hc]
    have := ih y (pre ++ [x]) fuel hc2 hnd hpar (fun z hz => htext z (by simp [hz]))
      (by simp at hfuel; omega)
    simp only [latestLoop, hnext, List.head?_cons, List.cons_append, hy, this]
    cases h : run.getLast? with
    | none => simp [List.getLast?_cons, h]
    | some z => simp [List.getLast?_cons, h]

theorem Dom.RunAt.parent_self {d : Dom} {p x : Nat} {a run1 run2 b : List Nat}
    (h : d.RunAt p x a run1 run2 b) : d.parent x = some p :=
  h.parents x (by simp [h.children_eq])

theorem Dom.RunAt.earliest {d : Dom} {p x : Nat} {a run1 run2 b : List Nat}
    (h : d.RunAt p x a run1 run2 b) {fuel : Nat} (hfuel : run1.length < fuel) :
    earliestLogicallyAdjacentTextNode d fuel x = Except.ok (run1.head?.getD x) :=
  earliestLoop_run d p a h.left_boundary run1 x (run2 ++ b) fuel
    (by simp [h.children_eq]) h.nodup h.parents h.text_run1 hfuel

theorem Dom.RunAt.latest {d : Dom} {p x : Nat} {a run1 run2 b : List Nat}
    (h : d.RunAt p x a run1 run2 b) {fuel : Nat} (hfuel : run2.length < fuel) :
    latestLogicallyAdjacentTextNode d fuel x = Except.ok (run2.getLast?.getD x) :=
  latestLoop_run d p b h.right_boundary run2 x (a ++ run1) fuel
    (by simp [h.children_eq]) h.nodup h.parents h.text_run2 hfuel

theorem siblingsAfter_of_split {d : Dom} {n : Nat} (p : Nat) (pre post : List Nat)
    (hp : d.parent n = some p) (hc : d.children p = pre ++ n :: post) (hn : n ∉ pre) :
    d.siblingsAfter n = post := by
  simp [Dom.siblingsAfter, hp, hc, dropWhile_ne_split hn]

theorem rdropWhile_append_rtakeWhile (f : Nat → Bool) (l : List Nat) :
    l.rdropWhile f ++ l.rtakeWhile f = l := by
  have h := congrArg List.reverse (List.takeWhile_append_dropWhile f l.reverse)
  rw [List.reverse_append, List.reverse_reverse] at h
  exact h

theorem runAt_of_split (d : Dom) (p x : Nat) (pre post : List Nat)
    (hc : d.children p = pre ++ x :: post) (hnd : (d.children p).Nodup)
    (hpar : ∀ y ∈ d.children p, d.parent y = some p) (htext : d.isText x = true) :
    d.RunAt p x (pre.rdropWhile d.isText) (pre.rtakeWhile d.isText)
      (post.takeWhile d.isText) (post.dropWhile d.isText) where
  children_eq := by
    rw [hc, rdropWhile_append_rtakeWhile]
    simp [List.takeWhile_append_dropWhile]
  nodup := hnd
  parents := hpar
  text_self := htext
  text_run1 := fun y hy => List.mem_rtakeWhile_imp hy
  text_run2 := fun y hy => (List.mem_takeWhile_imp hy)
  left_boundary := by
    intro q hq
    by_cases hl : pre.rdropWhile d.isText = []
    · simp [hl] at hq
    · have := List.rdropWhile_last_not d.isText pre hl
      rw [List.getLast?_eq_getLast _ hl] at hq
      simp at hq
      rw [← hq]; simpa using this
  right_boundary := by
    intro q hq
    have := List.head?_dropWhile_not d.isText post
    simp at hq
    rw [hq] at this
    exact this

theorem wholeTextLoop_run (d : Dom) (p : Nat) (b : List Nat) (run : List Nat) :
    ∀ (front : List Nat) (acc : List Char) (fuel : Nat),
      d.children p = front ++ run ++ b → (d.children p).Nodup →
      (∀ y ∈ d.children p, d.parent y = some p) → (∀ y ∈ run, d.isText y = true) →
      run.length < fuel →
      wholeTextLoop d (b.find? d.isText) fuel ((run ++ b).find? d.isText) acc =
        Except.ok (acc ++ run.flatMap d.data) := by
  induction run with
  | nil =>
    intro front acc fuel _ _ _ _ hfuel
    obtain ⟨fuel, rfl⟩ : ∃ k, fuel = k + 1 := ⟨fuel - 1, by simp at hfuel; omega⟩
    simp [wholeTextLoop]
  | cons t run ih =>
    intro front acc fuel hc hnd hpar htext hfuel
    obtain ⟨fuel, rfl⟩ : ∃ k, fuel = k + 1 := ⟨fuel - 1, by simp at hfuel; omega⟩
    have ht : d.isText t = true := htext t (by simp)
    have hc1 : d.children p = front ++ t :: (run ++ b) := by simp [hc]
    have hnd1 : (front ++ t :: (run ++ b)).Nodup := by rw [← hc1]; exact hnd
    have htp : d.parent t = some p := hpar t (by simp [hc])
    have hne : ¬ (some t = b.find? d.isText) := by
      intro h
      have : t ∈ run ++ b := List.mem_append_right _ (List.mem_of_find?_eq_some h.symm)
      exact nodup_not_mem_right hnd1 this
    have hnext : TextNodeTraversal.nextSibling d t = (run ++ b).find? d.isText := by
      simp [TextNodeTraversal.nextSibling,
        siblingsAfter_of_split p front (run ++ b) htp hc1 (nodup_not_mem_left hnd1)]
    have := ih (front ++ [t]) (acc ++ d.data t) fuel (by simp [hc]) hnd hpar
      (fun z hz => htext z (by simp [hz])) (by simp at hfuel; omega)
    simp only [List.cons_append, List.find?_cons, ht, wholeTextLoop, hne, if_false, hnext, this]
    simp

theorem Dom.RunAt.wholeText_eq {d : Dom} {p x : Nat} {a run1 run2 b : List Nat}
    (h : d.RunAt p x a run1 run2 b) {fuel : Nat}
    (hfuel : (run1 ++ x :: run2).length < fuel) :
    wholeText d fuel x = Except.ok ((run1 ++ x :: run2).flatMap d.data) := by
  have hf1 : run1.length < fuel := by simp at hfuel; omega
  have hf2 : run2.length < fuel := by simp at hfuel; omega
  have hstart : some (run1.head?.getD x) = ((run1 ++ x :: run2) ++ b).find? d.isText := by
    cases hr : run1 with
    | nil => simp [h.text_self]
    | cons y r => simp [h.text_run1 y (by simp [hr])]
  have hend : TextNodeTraversal.nextSibling d (run2.getLast?.getD x) = b.find? d.isText := by
    have hnd := h.nodup
    rcases List.eq_nil_or_concat run2 with hr | ⟨r, z, hr⟩
    · have hc1 : d.children p = (a ++ run1) ++ x :: b := by simp [h.children_eq, hr]
      rw [hc1] at hnd
      simp [hr, TextNodeTraversal.nextSibling,
        siblingsAfter_of_split p (a ++ run1) b h.parent_self hc1 (nodup_not_mem_left hnd)]
    · have hc1 : d.children p = (a ++ run1 ++ x :: r) ++ z :: b := by
        simp [h.children_eq, hr]
      rw [hc1] at hnd
      have hz : d.parent z = some p := h.parents z (by simp [hc1])
      simp [hr, TextNodeTraversal.nextSibling,
        siblingsAfter_of_split p (a ++ run1 ++ x :: r) b hz hc1 (nodup_not_mem_left hnd)]
  have hall : ∀ y ∈ run1 ++ x :: run2, d.isText y = true := by
    intro y hy
    simp only [List.mem_append, List.mem_cons] at hy
    rcases hy with hy | rfl | hy
    · exact h.text_run1 y hy
    · exact h.text_self
    · exact h.text_run2 y hy
  have hloop := wholeTextLoop_run d p b (run1 ++ x :: run2) a [] fuel
    (by simp [h.children_eq]) h.nodup h.parents hall hfuel
  simp only [wholeText, h.earliest hf1, h.latest hf2, hend, hstart, hloop, List.nil_append]

/-- C5: for every text node `x` of a child list `pre ++ x :: post`, `wholeText` is the
concatenation, in sibling order, of the data of the maximal run of text-bearing siblings
around `x` (the longest all-text end of `pre`, then `x`, then the longest all-text start
of `post`); `earliestLogicallyAdjacentTextNode` is the first node of that run and
`latestLogicallyAdjacentTextNode` its last; for a run of length 1 the result is
`data x`. -/
theorem wholeText_concat_run (d : Dom) (p x : Nat) (pre post : List Nat) (fuel : Nat)
    (hc : d.children p = pre ++ x :: post) (hnd : (d.children p).Nodup)
    (hpar : ∀ y ∈ d.children p, d.parent y = some p) (htext : d.isText x = true)
    (hfuel : (d.children p).length < fuel) :
    wholeText d fuel x = Except.ok
      ((pre.rtakeWhile d.isText ++ x :: post.takeWhile d.isText).flatMap d.data) ∧
    earliestLogicallyAdjacentTextNode d fuel x =
      Except.ok ((pre.rtakeWhile d.isText ++ [x]).head?.getD x) ∧
    latestLogicallyAdjacentTextNode d fuel x =
      Except.ok ((x :: post.takeWhile d.isText).getLast?.getD x) ∧
    (pre.rtakeWhile d.isText = [] → post.takeWhile d.isText = [] →
      wholeText d fuel x = Except.ok (d.data x)) := by
  have h := runAt_of_split d p x pre post hc hnd hpar htext
  have hlen : (pre.rtakeWhile d.isText ++ x :: post.takeWhile d.isText).length < fuel := by
    have := congrArg List.length h.children_eq
    simp only [List.length_append, List.length_cons] at this ⊢
    omega
  have hw := h.wholeText_eq hlen
  have he : _ = _ := @Dom.RunAt.earliest _ _ _ _ _ _ _ h fuel (by simp at hlen; omega)
  have hl : _ = _ := @Dom.RunAt.latest _ _ _ _ _ _ _ h fuel (by simp at hlen; omega)
  refine ⟨hw, ?_, ?_, ?_⟩
  · rw [he]; cases pre.rtakeWhile d.isText <;> simp
  · rw [hl]
    cases hr : (post.takeWhile d.isText).getLast? with
    | none => simp [List.getLast?_cons, hr]
    | some z => simp [List.getLast?_cons, hr]
  · intro h1 h2
    rw [hw, h1, h2]; simp

/-- C5 evaluated: for the siblings "ab", "cd", "ef", `wholeText` of the middle node is
"abcdef". -/
theorem wholeText_concat_run_witness :
    wholeText abcdefDom 4 2 = Except.ok ['a', 'b', 'c', 'd', 'e', 'f'] :=
  (wholeText_concat_run abcdefDom 0 2 [1] [3] 4 (by decide) (by decide) (by decide)
    (by decide) (by decide)).1.trans rfl

/-- C10: for every text node `x` of a child list, `earliestLogicallyAdjacentTextNode`
returns the first node `e` and `latestLogicallyAdjacentTextNode` the last node `l` of a
stretch `run1 ++ x :: run2` of the child list all of whose nodes are text-bearing, such
that the previous sibling of `e` is absent or not text-bearing and the next sibling of
`l` is absent or not text-bearing. -/
theorem adjacent_text_node_bounds (d : Dom) (p x : Nat) (pre post : List Nat) (fuel : Nat)
    (hc : d.children p = pre ++ x :: post) (hnd : (d.children p).Nodup)
    (hpar : ∀ y ∈ d.children p, d.parent y = some p) (htext : d.isText x = true)
    (hfuel : (d.children p).length < fuel) :
    ∃ a run1 run2 b e l,
      d.children p = a ++ run1 ++ x :: run2 ++ b ∧
      earliestLogicallyAdjacentTextNode d fuel x = Except.ok e ∧
      latestLogicallyAdjacentTextNode d fuel x = Except.ok l ∧
      (run1 ++ [x]).head? = some e ∧ (x :: run2).getLast? = some l ∧
      (∀ y ∈ run1 ++ x :: run2, d.isText y = true) ∧
      (∀ q ∈ d.previousSibling e, d.isText q = false) ∧
      (∀ q ∈ d.nextSibling l, d.isText q = false) := by
  have h := runAt_of_split d p x pre post hc hnd hpar htext
  generalize pre.rdropWhile d.isText = a at h
  generalize pre.rtakeWhile d.isText = run1 at h
  generalize post.takeWhile d.isText = run2 at h
  generalize post.dropWhile d.isText = b at h
  have hlen : (a ++ run1 ++ x :: run2 ++ b).length < fuel := by
    rw [← h.children_eq]; exact hfuel
  have hndc : (a ++ run1 ++ x :: run2 ++ b).Nodup := by rw [← h.children_eq]; exact h.nodup
  refine ⟨a, run1, run2, b, run1.head?.getD x, run2.getLast?.getD x, h.children_eq,
    h.earliest (by simp at hlen; omega), h.latest (by simp at hlen; omega), ?_, ?_, ?_, ?_, ?_⟩
  · cases run1 <;> simp
  · cases hr : run2.getLast? with
    | none => simp [List.getLast?_cons, hr]
    | some z => simp [List.getLast?_cons, hr]
  · intro y hy
    simp only [List.mem_append, List.mem_cons] at hy
    rcases hy with hy | rfl | hy
    · exact h.text_run1 y hy
    · exact h.text_self
    · exact h.text_run2 y hy
  · have hprev : d.previousSibling (run1.head?.getD x) = a.getLast? := by
      cases hr : run1 with
      | nil =>
        subst hr
        have hc1 : d.children p = a ++ x :: (run2 ++ b) := by simp [h.children_eq]
        exact previousSibling_of_split p a (run2 ++ b) h.parent_self hc1
          (nodup_not_mem_left (by simpa using hndc))
      | cons y r =>
        subst hr
        have hc1 : d.children p = a ++ y :: (r ++ x :: run2 ++ b) := by simp [h.children_eq]
        exact previousSibling_of_split p a (r ++ x :: run2 ++ b)
          (h.parents y (by simp [hc1])) hc1 (nodup_not_mem_left (by simpa using hndc))
    rw [hprev]; exact h.left_boundary
  · have hnext : d.nextSibling (run2.getLast?.getD x) = b.head? := by
      rcases List.eq_nil_or_concat run2 with hr | ⟨r, z, hr⟩
      · subst hr
        have hc1 : d.children p = (a ++ run1) ++ x :: b := by simp [h.children_eq]
        exact nextSibling_of_split p (a ++ run1) b h.parent_self hc1
          (nodup_not_mem_left (by simpa using hndc))
      · rw [List.concat_eq_append] at hr
        subst hr
        have hc1 : d.children p = (a ++ run1 ++ x :: r) ++ z :: b := by simp [h.children_eq]
        have hz : (r ++ [z]).getLast?.getD x = z := by simp
        rw [hz]
        exact nextSibling_of_split p (a ++ run1 ++ x :: r) b
          (h.parents z (by simp [hc1])) hc1 (nodup_not_mem_left (by simpa using hndc))
    rw [hnext]; exact h.right_boundary

/-- C10 evaluated: among the siblings "ab", "cd", "ef", the scans from the middle node
return the first and the last node. -/
theorem adjacent_text_node_bounds_witness :
    ∃ a run1 run2 b e l,
      abcdefDom.children 0 = a ++ run1 ++ 2 :: run2 ++ b ∧
      earliestLogicallyAdjacentTextNode abcdefDom 4 2 = Except.ok e ∧
      latestLogicallyAdjacentTextNode abcdefDom 4 2 = Except.ok l ∧
      (run1 ++ [2]).head? = some e ∧ (2 :: run2).getLast? = some l ∧
      (∀ y ∈ run1 ++ 2 :: run2, abcdefDom.isText y = true) ∧
      (∀ q ∈ abcdefDom.previousSibling e, abcdefDom.isText q = false) ∧
      (∀ q ∈ abcdefDom.nextSibling l, abcdefDom.isText q = false) :=
  adjacent_text_node_bounds abcdefDom 0 2 [1] [3] 4 (by decide) (by decide) (by decide)
    (by decide) (by decide)

/-! ## Replace-whole-text operator without handlers -/

@[simp] theorem unlinkAll_nil (d : Dom) (p : Nat) : d.unlinkAll p [] = d := rfl

@[simp] theorem unlinkAll_cons (d : Dom) (p t : Nat) (run : List Nat) :
    d.unlinkAll p (t :: run) = (d.unlink p t).unlinkAll p run := rfl

theorem unlinkAll_isText (p : Nat) (run : List Nat) :
    ∀ d : Dom, (d.unlinkAll p run).isText = d.isText := by
  induction run with
  | nil => intro d; rfl
  | cons t run ih => intro d; rw [unlinkAll_cons, ih]; rfl

theorem unlinkAll_data (p : Nat) (run : List Nat) :
    ∀ d : Dom, (d.unlinkAll p run).data = d.data := by
  induction run with
  | nil => intro d; rfl
  | cons t run ih => intro d; rw [unlinkAll_cons, ih]; rfl

theorem unlinkAll_parent (p : Nat) (run : List Nat) :
    ∀ (d : Dom) (n : Nat),
      (d.unlinkAll p run).parent n = if n ∈ run then none else d.parent n := by
  induction run with
  | nil => intro d n; simp
  | cons t run ih =>
    intro d n
    rw [unlinkAll_cons, ih]
    by_cases h1 : n ∈ run
    · simp [h1]
    · by_cases h2 : n = t <;> simp [h1, h2, Dom.unlink]

theorem unlinkAll_children_ne (p : Nat) (run : List Nat) :
    ∀ (d : Dom) (q : Nat), q ≠ p → (d.unlinkAll p run).children q = d.children q := by
  induction run with
  | nil => intro d q _; rfl
  | cons t run ih =>
    intro d q hq
    rw [unlinkAll_cons, ih _ q hq]
    simp [Dom.unlink, hq]

theorem erase_split {t : Nat} {front rest : List Nat} (h : t ∉ front) :
    (front ++ t :: rest).erase t = front ++ rest := by
  rw [List.erase_append_right _ h, List.erase_cons_head]

theorem unlinkAll_children (p : Nat) (front : List Nat) (run : List Nat) :
    ∀ (d : Dom) (rest : List Nat), d.children p = front ++ run ++ rest →
      (front ++ run ++ rest).Nodup →
      (d.unlinkAll p run).children p = front ++ rest := by
  induction run with
  | nil => intro d rest hc _; simpa using hc
  | cons t run ih =>
    intro d rest hc hnd
    have hnd1 : (front ++ t :: (run ++ rest)).Nodup := by simpa using hnd
    have hc1 : (d.unlink p t).children p = front ++ run ++ rest := by
      simp [Dom.unlink, hc, erase_split (nodup_not_mem_left hnd1)]
    rw [unlinkAll_cons]
    refine ih _ rest hc1 ?_
    have := hnd1.sublist (List.Sublist.append_left (List.sublist_cons_self t (run ++ rest)) front)
    simpa using this

theorem removeChild_quiet {env : Env} {p c : Nat} {d : Dom}
    (hp : d.parent c = some p) (hq : ∀ s, env.onRemove c s = s) :
    removeChild env p c d = d.unlink p c := by
  simp [removeChild, hp, hq]

/-- Progress of a removal loop through a stretch `run` of text children on whose removal no
handler acts: after `run.length` iterations the nodes of `run` are unlinked and the loop
stands at the node after the stretch. -/
theorem removeLoop_steps (env : Env) (p : Nat) (stop : Option Nat) (front : List Nat)
    (run : List Nat) :
    ∀ (d : Dom) (rest : List Nat) (fuel : Nat),
      d.children p = front ++ run ++ rest → (d.children p).Nodup →
      (∀ y ∈ d.children p, d.parent y = some p) → (∀ y ∈ run, d.isText y = true) →
      (∀ y ∈ run, some y ≠ stop) → (∀ y ∈ run, ∀ s, env.onRemove y s = s) →
      removeLoop env (some p) stop (fuel + run.length) ((run ++ rest).head?) d =
        removeLoop env (some p) stop fuel rest.head? (d.unlinkAll p run) := by
  induction run with
  | nil => intro d rest fuel _ _ _ _ _ _; simp
  | cons t run ih =>
    intro d rest fuel hc hnd hpar htext hstop hquiet
    have hc1 : d.children p = front ++ t :: (run ++ rest) := by simp [hc]
    have hnd1 : (front ++ t :: (run ++ rest)).Nodup := by rw [← hc1]; exact hnd
    have htf : t ∉ front := nodup_not_mem_left hnd1
    have htr : t ∉ run ++ rest := nodup_not_mem_right hnd1
    have htp : d.parent t = some p := hpar t (by simp [hc])
    have hnext : d.nextSibling t = (run ++ rest).head? :=
      nextSibling_of_split p front (run ++ rest) htp hc1 htf
    have hc2 : (d.unlink p t).children p = front ++ run ++ rest := by
      simp [Dom.unlink, hc1, erase_split htf]
    have hnd2 : ((d.unlink p t).children p).Nodup := by
      rw [hc2]
      have := hnd1.sublist
        (List.Sublist.append_left (List.sublist_cons_self t (run ++ rest)) front)
      simpa using this
    have hpar2 : ∀ y ∈ (d.unlink p t).children p, (d.unlink p t).parent y = some p := by
      intro y hy
      have hyt : y ≠ t := by
        rintro rfl
        rw [hc2] at hy
        simp only [List.mem_append] at hy htf htr
        rcases hy with (hy | hy) | hy
        · exact htf hy
        · exact htr (Or.inl hy)
        · exact htr (Or.inr hy)
      have : y ∈ d.children p := by
        rw [hc2] at hy; rw [hc1]
        simp only [List.mem_append, List.mem_cons] at hy ⊢
        tauto
      simp [Dom.unlink, hyt, hpar y this]
    have := ih (d.unlink p t) rest fuel hc2 hnd2 hpar2
      (fun y hy => htext y (by simp [hy])) (fun y hy => hstop y (by simp [hy]))
      (fun y hy => hquiet y (by simp [hy]))
    have hfuel : fuel + (t :: run).length = (fuel + run.length) + 1 := by simp; omega
    rw [hfuel]
    simp only [List.cons_append, List.head?_cons, removeLoop, ne_eq, hstop t (by simp),
      not_false_eq_true, htext t (by simp), Dom.parentNode, htp, and_self, if_true, hnext,
      removeChild_quiet htp (hquiet t (by simp)), this, unlinkAll_cons]

/-- A removal loop standing at its stop node, or past the end of the child list, returns. -/
theorem removeLoop_done (env : Env) (parent stop : Option Nat) (fuel : Nat) (d : Dom)
    (n : Option Nat) (h : n = none ∨ n = stop) :
    removeLoop env parent stop (fuel + 1) n d = Except.ok d := by
  rcases h with rfl | rfl
  · simp [removeLoop]
  · cases n <;> simp [removeLoop]

/-- A removal loop started at the head of a stretch `run` of text children on whose removal
no handler acts, with the stretch ending at the stop node or at the end of the child
list, unlinks exactly the stretch. -/
theorem removeLoop_run (env : Env) (p : Nat) (stop : Option Nat) (front run rest : List Nat)
    (d : Dom) (fuel : Nat)
    (hc : d.children p = front ++ run ++ rest) (hnd : (d.children p).Nodup)
    (hpar : ∀ y ∈ d.children p, d.parent y = some p) (htext : ∀ y ∈ run, d.isText y = true)
    (hstop : ∀ y ∈ run, some y ≠ stop) (hquiet : ∀ y ∈ run, ∀ s, env.onRemove y s = s)
    (hend : rest.head? = none ∨ rest.head? = stop) (hfuel : run.length < fuel) :
    removeLoop env (some p) stop fuel ((run ++ rest).head?) d =
      Except.ok (d.unlinkAll p run) := by
  obtain ⟨k, rfl⟩ : ∃ k, fuel = (k + 1) + run.length := ⟨fuel - run.length - 1, by omega⟩
  rw [removeLoop_steps env p stop front run d rest (k + 1) hc hnd hpar htext hstop hquiet]
  exact removeLoop_done env (some p) stop k _ _ hend

theorem unlinkAll_parents (p : Nat) (front run rest : List Nat) (d : Dom)
    (hc : d.children p = front ++ run ++ rest) (hnd : (d.children p).Nodup)
    (hpar : ∀ y ∈ d.children p, d.parent y = some p) :
    ∀ y ∈ (d.unlinkAll p run).children p, (d.unlinkAll p run).parent y = some p := by
  rw [hc] at hnd
  intro y hy
  rw [unlinkAll_children p front run d rest hc hnd] at hy
  have hyr : y ∉ run := by
    intro hm
    have h1 : (front ++ run).Nodup ∧ rest.Nodup ∧ List.Disjoint (front ++ run) rest :=
      List.nodup_append.1 hnd
    have h2 := List.nodup_append.1 h1.1
    simp only [List.mem_append] at hy
    rcases hy with hy | hy
    · exact h2.2.2 hy hm
    · exact h1.2.2 (List.mem_append_right _ hm) hy
  rw [unlinkAll_parent, if_neg hyr]
  exact hpar y (by rw [hc]; simp only [List.mem_append] at hy ⊢; tauto)

/-- The value of the tail of `replaceWholeText` on a tree in which the node `x` is followed
by the stretch `run2` of text children that ends the adjacency run, when no handler acts
on the removal of `x` or of a node of `run2`. -/
theorem replaceWholeTextTail_eq (env : Env) (p x : Nat) (front run2 b : List Nat)
    (newText : List Char) (fuel : Nat) (d1 : Dom)
    (hc1 : d1.children p = (front ++ [x]) ++ run2 ++ b) (hnd1 : (d1.children p).Nodup)
    (hpar1 : ∀ y ∈ d1.children p, d1.parent y = some p)
    (htext : ∀ y ∈ run2, d1.isText y = true)
    (hquiet : ∀ y ∈ x :: run2, ∀ s, env.onRemove y s = s) (hf2 : run2.length < fuel) :
    replaceWholeTextTail env (some p) fuel x (run2.getLast?.getD x) newText d1 = Except.ok
      (if newText.isEmpty
        then (none, (d1.unlinkAll p run2).unlink p x)
        else (some x, setData env x newText (d1.unlinkAll p run2))) := by
  have hndc : ((front ++ [x]) ++ run2 ++ b).Nodup := by rw [← hc1]; exact hnd1
  have hx2 : x ∉ run2 := by
    have : (front ++ x :: (run2 ++ b)).Nodup := by simpa using hndc
    exact fun hm => nodup_not_mem_right this (List.mem_append_left _ hm)
  have hxp1 : d1.parent x = some p := hpar1 x (by simp [hc1])
  have hloop2 : (if x ≠ run2.getLast?.getD x then
        removeLoop env (some p) (d1.nextSibling (run2.getLast?.getD x)) fuel
          (d1.nextSibling x) d1
      else Except.ok d1) = Except.ok (d1.unlinkAll p run2) := by
    rcases List.eq_nil_or_concat run2 with hr | ⟨r, z, hr⟩
    · subst hr; simp
    · rw [List.concat_eq_append] at hr
      subst hr
      have hz : (r ++ [z]).getLast?.getD x = z := by simp
      have hxz : x ≠ z := fun e => hx2 (by simp [e])
      have hc1z : d1.children p = (front ++ x :: r) ++ z :: b := by simp [hc1]
      have hnz : d1.nextSibling z = b.head? :=
        nextSibling_of_split p (front ++ x :: r) b (hpar1 z (by simp [hc1z])) hc1z
          (nodup_not_mem_left (by rw [← hc1z]; exact hnd1))
      have hc1x : d1.children p = front ++ x :: (r ++ [z] ++ b) := by simp [hc1]
      have hnx : d1.nextSibling x = ((r ++ [z]) ++ b).head? :=
        nextSibling_of_split p front (r ++ [z] ++ b) hxp1 hc1x
          (nodup_not_mem_left (by rw [← hc1x]; exact hnd1))
      have hstop2 : ∀ y ∈ r ++ [z], some y ≠ b.head? := by
        intro y hy hyb
        have hyb' : y ∈ b := List.mem_of_mem_head? hyb.symm
        exact (List.nodup_append.1 hndc).2.2 (List.mem_append_right _ hy) hyb'
      rw [hz, if_pos hxz, hnz, hnx]
      exact removeLoop_run env p b.head? (front ++ [x]) (r ++ [z]) b _ fuel hc1 hnd1 hpar1
        htext hstop2 (fun y hy => hquiet y (by simp at hy ⊢; tauto)) (Or.inr rfl) hf2
  have hxp2 : (d1.unlinkAll p run2).parent x = some p := by
    rw [unlinkAll_parent, if_neg hx2]; exact hxp1
  simp only [replaceWholeTextTail, hloop2, Dom.parentNode, hxp2, if_true]
  by_cases he : newText.isEmpty = true
  · simp [he, removeChild_quiet hxp2 (hquiet x (by simp))]
  · simp [he]

/-- The value of `replaceWholeText` when no handler acts on the removal of a node of the
run: both stretches of the run around the node are unlinked, then the node is removed
(empty text) or receives the new data. -/
theorem Dom.RunAt.replaceWholeText_eq {d : Dom} {p x : Nat} {a run1 run2 b : List Nat}
    (h : d.RunAt p x a run1 run2 b) (env : Env) (newText : List Char) {fuel : Nat}
    (hquiet : ∀ y ∈ run1 ++ x :: run2, ∀ s, env.onRemove y s = s)
    (hfuel : (d.children p).length < fuel) :
    replaceWholeText env fuel x newText d = Except.ok
      (if newText.isEmpty
        then (none, ((d.unlinkAll p run1).unlinkAll p run2).unlink p x)
        else (some x, setData env x newText ((d.unlinkAll p run1).unlinkAll p run2))) := by
  have hlen : (a ++ run1 ++ x :: run2 ++ b).length < fuel := by
    rw [← h.children_eq]; exact hfuel
  have hndc : (a ++ run1 ++ x :: run2 ++ b).Nodup := by rw [← h.children_eq]; exact h.nodup
  have hf1 : run1.length < fuel := by simp at hlen; omega
  have hf2 : run2.length < fuel := by simp at hlen; omega
  have hnd' : (a ++ run1 ++ x :: (run2 ++ b)).Nodup := by simpa using hndc
  have hx1 : x ∉ run1 := fun hm => nodup_not_mem_left hnd' (List.mem_append_right _ hm)
  have hstart : some (run1.head?.getD x) = (run1 ++ (x :: run2 ++ b)).head? := by
    cases run1 <;> simp
  have hloop1 := removeLoop_run env p (some x) a run1 (x :: run2 ++ b) d fuel
    (by simp [h.children_eq]) h.nodup h.parents h.text_run1
    (fun y hy hyx => hx1 (by simp at hyx; rw [← hyx]; exact hy))
    (fun y hy => hquiet y (by simp [hy])) (Or.inr (by simp)) hf1
  have hc1 : (d.unlinkAll p run1).children p = (a ++ [x]) ++ run2 ++ b := by
    rw [unlinkAll_children p a run1 d (x :: run2 ++ b) (by simp [h.children_eq])
      (by simpa using hndc)]
    simp
  have hnd1 : ((d.unlinkAll p run1).children p).Nodup := by
    rw [hc1]
    have hs : (a ++ x :: (run2 ++ b)).Sublist (a ++ run1 ++ x :: (run2 ++ b)) := by
      rw [List.append_assoc]
      exact List.Sublist.append_left (List.sublist_append_right _ _) a
    simpa using hnd'.sublist hs
  have hpar1 := unlinkAll_parents p a run1 (x :: run2 ++ b) d
    (by simp [h.children_eq]) h.nodup h.parents
  have htail := replaceWholeTextTail_eq env p x a run2 b newText fuel (d.unlinkAll p run1)
    hc1 hnd1 hpar1 (fun y hy => by rw [unlinkAll_isText]; exact h.text_run2 y hy)
    (fun y hy => hquiet y (by simp at hy ⊢; tauto)) hf2
  simp only [replaceWholeText, h.earliest hf1, h.latest hf2, Dom.parentNode, h.parent_self,
    hstart, hloop1, htail]

theorem Dom.RunAt.children_after_loops {d : Dom} {p x : Nat} {a run1 run2 b : List Nat}
    (h : d.RunAt p x a run1 run2 b) :
    ((d.unlinkAll p run1).unlinkAll p run2).children p = a ++ x :: b := by
  have hndc : (a ++ run1 ++ x :: run2 ++ b).Nodup := by rw [← h.children_eq]; exact h.nodup
  have hnd' : (a ++ run1 ++ x :: (run2 ++ b)).Nodup := by simpa using hndc
  have hc1 : (d.unlinkAll p run1).children p = (a ++ [x]) ++ run2 ++ b := by
    rw [unlinkAll_children p a run1 d (x :: run2 ++ b) (by simp [h.children_eq])
      (by simpa using hndc)]
    simp
  have hnd1 : ((a ++ [x]) ++ run2 ++ b).Nodup := by
    have hs : (a ++ x :: (run2 ++ b)).Sublist (a ++ run1 ++ x :: (run2 ++ b)) := by
      rw [List.append_assoc]
      exact List.Sublist.append_left (List.sublist_append_right _ _) a
    simpa using hnd'.sublist hs
  rw [unlinkAll_children p (a ++ [x]) run2 _ b hc1 hnd1]
  simp

theorem Dom.RunAt.not_mem_boundary {d : Dom} {p x : Nat} {a run1 run2 b : List Nat}
    (h : d.RunAt p x a run1 run2 b) :
    ∀ y ∈ run1 ++ x :: run2, y ∉ a ++ b := by
  have hndc : (a ++ run1 ++ x :: run2 ++ b).Nodup := by rw [← h.children_eq]; exact h.nodup
  have h1 : (a ++ ((run1 ++ x :: run2) ++ b)).Nodup := by simpa using hndc
  have h2 := List.nodup_append.1 h1
  have h3 := List.nodup_append.1 h2.2.1
  intro y hy hyab
  rcases List.mem_append.1 hyab with hya | hyb
  · exact h2.2.2 hya (List.mem_append_left _ hy)
  · exact h3.2.2 hy hyb

/-- C6: for a text node `x` whose adjacency run is `run1 ++ x :: run2` (N >= 1 nodes) and
an environment without handlers, `replaceWholeText` with the empty string returns none,
and afterwards no node of the run is a child of the parent or has a parent link; the
parent keeps exactly the siblings outside the run. -/
theorem replaceWholeText_empty_removes_run (env : Env) (d : Dom) (p x : Nat)
    (a run1 run2 b : List Nat) (fuel : Nat)
    (h : d.RunAt p x a run1 run2 b) (hq : env.NoHandlers)
    (hfuel : (d.children p).length < fuel) :
    ∃ d', replaceWholeText env fuel x [] d = Except.ok (none, d') ∧
      d'.children p = a ++ b ∧
      ∀ y ∈ run1 ++ x :: run2, y ∉ d'.children p ∧ d'.parent y = none := by
  have hndc : (a ++ run1 ++ x :: run2 ++ b).Nodup := by rw [← h.children_eq]; exact h.nodup
  have hxa : x ∉ a := by
    have : (a ++ x :: b).Nodup := by
      have hs : (a ++ x :: b).Sublist (a ++ (run1 ++ x :: (run2 ++ b))) :=
        List.Sublist.append_left ((List.Sublist.cons₂ x
          (List.sublist_append_right run2 b)).trans (List.sublist_append_right run1 _)) a
      exact (show (a ++ (run1 ++ x :: (run2 ++ b))).Nodup by simpa using hndc).sublist hs
    exact nodup_not_mem_left this
  have hch : (((d.unlinkAll p run1).unlinkAll p run2).unlink p x).children p = a ++ b := by
    simp [Dom.unlink, h.children_after_loops, erase_split hxa]
  refine ⟨_, by rw [h.replaceWholeText_eq env [] (fun y _ s => hq.1 y s) hfuel]; rfl, hch, ?_⟩
  intro y hy
  refine ⟨by rw [hch]; exact h.not_mem_boundary y hy, ?_⟩
  simp only [Dom.unlink, unlinkAll_parent]
  simp only [List.mem_append, List.mem_cons] at hy
  rcases hy with hy | rfl | hy
  · by_cases h1 : y = x <;> by_cases h2 : y ∈ run2 <;> simp [h1, h2, hy]
  · simp
  · by_cases h1 : y = x <;> simp [h1, hy]

/-- C7: for a text node `x` whose adjacency run is `run1 ++ x :: run2`, a non-empty string
`s` and an environment without handlers, `replaceWholeText` returns `x` itself; afterwards
the parent's child list is the former one with the whole run replaced by `x` alone (so `x`
stands between the run's former boundary siblings), `x` holds `s`, and every other node
of the run is no longer a child of the parent. -/
theorem replaceWholeText_nonempty_collapses_run (env : Env) (d : Dom) (p x : Nat)
    (a run1 run2 b : List Nat) (s : List Char) (fuel : Nat)
    (h : d.RunAt p x a run1 run2 b) (hq : env.NoHandlers) (hs : s ≠ [])
    (hfuel : (d.children p).length < fuel) :
    ∃ d', replaceWholeText env fuel x s d = Except.ok (some x, d') ∧
      d'.children p = a ++ x :: b ∧ d'.parent x = some p ∧ d'.data x = s ∧
      ∀ y ∈ run1 ++ run2, y ∉ d'.children p ∧ d'.parent y = none := by
  have hndc : (a ++ run1 ++ x :: run2 ++ b).Nodup := by rw [← h.children_eq]; exact h.nodup
  have hnd' : (a ++ run1 ++ x :: (run2 ++ b)).Nodup := by simpa using hndc
  have hx1 : x ∉ run1 := fun hm => nodup_not_mem_left hnd' (List.mem_append_right _ hm)
  have hx2 : x ∉ run2 := fun hm => nodup_not_mem_right hnd' (List.mem_append_left _ hm)
  have hse : s.isEmpty = false := by cases s <;> simp_all
  have hval := h.replaceWholeText_eq env s (fun y _ t => hq.1 y t) hfuel
  simp only [hse, Bool.false_eq_true, if_false] at hval
  have hset : setData env x s ((d.unlinkAll p run1).unlinkAll p run2) =
      { ((d.unlinkAll p run1).unlinkAll p run2) with
        data := fun n => if n = x then s else ((d.unlinkAll p run1).unlinkAll p run2).data n
        trace := ((d.unlinkAll p run1).unlinkAll p run2).trace
          ++ (if ((d.unlinkAll p run1).unlinkAll p run2).renderer x
              then [Event.textRendererUpdated x 0
                (((d.unlinkAll p run1).unlinkAll p run2).data x).length] else [])
          ++ [Event.contentModified x (((d.unlinkAll p run1).unlinkAll p run2).data x) s] } := by
    simp only [setData, hq.2]
  refine ⟨_, hval, ?_, ?_, ?_, ?_⟩
  · rw [hset]; exact h.children_after_loops
  · rw [hset]; simp only [unlinkAll_parent, hx1, hx2, if_false]; exact h.parent_self
  · rw [hset]; simp
  · intro y hy
    have hyne : y ≠ x := by
      rintro rfl
      rcases List.mem_append.1 hy with h1 | h2
      · exact hx1 h1
      · exact hx2 h2
    have hyrun : y ∈ run1 ++ x :: run2 := by
      simp only [List.mem_append, List.mem_cons] at hy ⊢; tauto
    rw [hset]
    refine ⟨?_, ?_⟩
    · show y ∉ ((d.unlinkAll p run1).unlinkAll p run2).children p
      rw [h.children_after_loops]
      intro hm
      have := h.not_mem_boundary y hyrun
      simp only [List.mem_append, List.mem_cons] at hm this
      rcases hm with hm | hm | hm
      · exact this (Or.inl hm)
      · exact hyne hm
      · exact this (Or.inr hm)
    · show ((d.unlinkAll p run1).unlinkAll p run2).parent y = none
      simp only [unlinkAll_parent]
      rcases List.mem_append.1 hy with h1 | h2
      · by_cases h2 : y ∈ run2 <;> simp [h1, h2]
      · simp [h2]

/-- C6 evaluated: between two elements, the run "ab", "cd", "ef" is removed entirely by
`replaceWholeText` with the empty string on its middle node, which returns none. -/
theorem replaceWholeText_empty_removes_run_witness :
    ∃ d', replaceWholeText Env.quiet 6 3 [] mixedDom = Except.ok (none, d') ∧
      d'.children 0 = [1] ++ [5] ∧
      ∀ y ∈ [2] ++ 3 :: [4], y ∉ d'.children 0 ∧ d'.parent y = none :=
  replaceWholeText_empty_removes_run Env.quiet mixedDom 0 3 [1] [2] [4] [5] 6
    ⟨by decide, by decide, by decide, by decide, by decide, by decide, by decide, by decide⟩
    ⟨fun _ _ => rfl, fun _ _ => rfl⟩ (by decide)

/-- C7 evaluated: `replaceWholeText` with "XY" on the middle node of the run "ab", "cd",
"ef" between two elements leaves the children `1, 3, 5` with "XY" in node `3`. -/
theorem replaceWholeText_nonempty_collapses_run_witness :
    ∃ d', replaceWholeText Env.quiet 6 3 ['X', 'Y'] mixedDom = Except.ok (some 3, d') ∧
      d'.children 0 = [1] ++ 3 :: [5] ∧ d'.parent 3 = some 0 ∧ d'.data 3 = ['X', 'Y'] ∧
      ∀ y ∈ [2] ++ [4], y ∉ d'.children 0 ∧ d'.parent y = none :=
  replaceWholeText_nonempty_collapses_run Env.quiet mixedDom 0 3 [1] [2] [4] [5] ['X', 'Y'] 6
    ⟨by decide, by decide, by decide, by decide, by decide, by decide, by decide, by decide⟩
    ⟨fun _ _ => rfl, fun _ _ => rfl⟩ (by decide) (by decide)

/-! ## Replace-whole-text operator under reentrant handlers -/

theorem unlink_linkedAt {d : Dom} {p : Nat} (c : Nat) (h : d.LinkedAt p) :
    (d.unlink p c).LinkedAt p := by
  intro y hy
  by_cases hyc : y = c
  · simp [Dom.unlink, hyc] at hy
  · simp only [Dom.unlink, hyc, if_false] at hy
    simp only [Dom.unlink, if_true]
    exact (List.mem_erase_of_ne hyc).2 (h y hy)

theorem unlink_length_lt {d : Dom} {p c : Nat} (h : d.LinkedAt p) (hc : d.parent c = some p) :
    ((d.unlink p c).children p).length < (d.children p).length := by
  have hm : c ∈ d.children p := h c hc
  have hpos : 0 < (d.children p).length := List.length_pos_of_mem hm
  simp only [Dom.unlink, if_true, List.length_erase_of_mem hm]
  omega

/-- A removal loop returns when the handlers never lengthen the captured parent's child
list and keep the parent links into it consistent: every iteration shortens the list. -/
theorem removeLoop_terminates (env : Env) (p : Nat) (stop : Option Nat)
    (hshrink : ∀ c s, ((env.onRemove c s).children p).length ≤ (s.children p).length)
    (hkeep : ∀ c s, s.LinkedAt p → (env.onRemove c s).LinkedAt p) :
    ∀ (fuel : Nat) (n : Option Nat) (d : Dom), d.LinkedAt p → (d.children p).length < fuel →
      ∃ d', removeLoop env (some p) stop fuel n d = Except.ok d' ∧ d'.LinkedAt p ∧
        (d'.children p).length ≤ (d.children p).length := by
  intro fuel
  induction fuel with
  | zero => intro n d _ hf; omega
  | succ fuel ih =>
    intro n d hl hf
    cases n with
    | none => exact ⟨d, by simp [removeLoop], hl, le_refl _⟩
    | some m =>
      by_cases hg : some m ≠ stop ∧ d.isText m = true ∧ d.parentNode m = some p
      · have hmp : d.parent m = some p := hg.2.2
        have hlt := unlink_length_lt hl hmp
        have hstep : ((removeChild env p m d).children p).length < (d.children p).length := by
          simp only [removeChild, hmp, if_true]
          exact lt_of_le_of_lt (hshrink m _) hlt
        have hl2 : (removeChild env p m d).LinkedAt p := by
          simp only [removeChild, hmp, if_true]
          exact hkeep m _ (unlink_linkedAt m hl)
        obtain ⟨d', hd', hl', hlen'⟩ := ih (d.nextSibling m) (removeChild env p m d) hl2
          (by omega)
        refine ⟨d', ?_, hl', by omega⟩
        rw [removeLoop, if_pos hg]
        exact hd'
      · exact ⟨d, by rw [removeLoop, if_neg hg], hl, le_refl _⟩

/-- C8 (amended): for every `newText` and every environment whose removal handlers never
lengthen the parent's child list and keep the parent links into it consistent (such as
a handler that deletes the node from its parent while siblings are being removed),
`replaceWholeText` completes with enough fuel; it returns none when `newText` is empty
and the node itself when `newText` is not empty. -/
theorem replaceWholeText_returns_under_handlers (env : Env) (d : Dom) (p x : Nat)
    (a run1 run2 b : List Nat) (newText : List Char) (fuel : Nat)
    (h : d.RunAt p x a run1 run2 b) (hlink : d.LinkedAt p)
    (hshrink : ∀ c s, ((env.onRemove c s).children p).length ≤ (s.children p).length)
    (hkeep : ∀ c s, s.LinkedAt p → (env.onRemove c s).LinkedAt p)
    (hfuel : (d.children p).length < fuel) :
    ∃ d', replaceWholeText env fuel x newText d =
      Except.ok (if newText.isEmpty then none else some x, d') := by
  have hlen : (a ++ run1 ++ x :: run2 ++ b).length < fuel := by
    rw [← h.children_eq]; exact hfuel
  have hf1 : run1.length < fuel := by simp at hlen; omega
  have hf2 : run2.length < fuel := by simp at hlen; omega
  obtain ⟨d1, hd1, hl1, hlen1⟩ := removeLoop_terminates env p (some x) hshrink hkeep fuel
    (some (run1.head?.getD x)) d hlink hfuel
  have hloop2 : ∃ d2, (if x ≠ run2.getLast?.getD x then
        removeLoop env (some p) (d1.nextSibling (run2.getLast?.getD x)) fuel
          (d1.nextSibling x) d1
      else Except.ok d1) = Except.ok d2 := by
    by_cases hx : x ≠ run2.getLast?.getD x
    · obtain ⟨d2, hd2, _, _⟩ := removeLoop_terminates env p
        (d1.nextSibling (run2.getLast?.getD x)) hshrink hkeep fuel (d1.nextSibling x) d1 hl1
        (by omega)
      exact ⟨d2, by rw [if_pos hx, hd2]⟩
    · exact ⟨d1, by rw [if_neg hx]⟩
  obtain ⟨d2, hd2⟩ := hloop2
  simp only [replaceWholeText, h.earliest hf1, h.latest hf2, Dom.parentNode, h.parent_self,
    hd1, replaceWholeTextTail, hd2]
  by_cases he : newText.isEmpty = true
  · by_cases hp2 : d2.parent x = some p
    · exact ⟨removeChild env p x d2, by simp [he, hp2]⟩
    · exact ⟨d2, by simp [he, hp2]⟩
  · exact ⟨setData env x newText d2, by simp [he]⟩

theorem detach_length_le (d : Dom) (u p : Nat) :
    ((d.detach u).children p).length ≤ (d.children p).length := by
  unfold Dom.detach
  split
  · exact le_refl _
  · rename_i q _
    by_cases hpq : p = q
    · subst hpq
      simp only [if_true]
      exact (List.erase_sublist u _).length_le
    · simp [hpq]

theorem detach_linkedAt {d : Dom} {p : Nat} (u : Nat) (h : d.LinkedAt p) :
    (d.detach u).LinkedAt p := by
  intro y hy
  unfold Dom.detach at hy ⊢
  split at hy
  · exact h y hy
  · rename_i q hq
    simp only [hq]
    by_cases hyu : y = u
    · simp [hyu] at hy
    · simp only [hyu, if_false] at hy
      by_cases hpq : p = q
      · subst hpq
        simp only [if_true]
        exact (List.mem_erase_of_ne hyu).2 (h y hy)
      · simp only [hpq, if_false]; exact h y hy

theorem ofChildren_linkedAt (kids : List (Bool × List Char)) :
    (Dom.ofChildren kids).LinkedAt 0 := by
  intro y hy
  simp only [Dom.ofChildren] at hy ⊢
  split at hy
  · rename_i hb
    simp only [if_true, List.mem_map, List.mem_range]
    exact ⟨y - 1, by omega, by omega⟩
  · simp at hy

/-- C8 as stated fails: with the siblings "ab", "cd", "ef", a handler that deletes the
middle node when the first one is removed, and the non-empty text "XY",
`replaceWholeText` on the middle node returns that node, not none. -/
theorem replaceWholeText_deleted_node_returned :
    ∃ d', replaceWholeText (Env.onRemoveOf 1 (fun s => s.detach 2)) 4 2 ['X', 'Y'] abcdefDom
        = Except.ok (some 2, d') ∧
      d'.parent 2 = none ∧ 2 ∉ d'.children 0 :=
  ⟨_, rfl, by decide, by decide⟩

/-- C8 (amended) evaluated: under the handler that deletes the middle node when the first
sibling is removed, `replaceWholeText` completes, with none for the empty text. -/
theorem replaceWholeText_returns_under_handlers_witness :
    ∃ d', replaceWholeText (Env.onRemoveOf 1 (fun s => s.detach 2)) 4 2 [] abcdefDom =
      Except.ok (none, d') :=
  replaceWholeText_returns_under_handlers (Env.onRemoveOf 1 (fun s => s.detach 2)) abcdefDom
    0 2 [] [1] [3] [] [] 4
    ⟨by decide, by decide, by decide, by decide, by decide, by decide, by decide, by decide⟩
    (ofChildren_linkedAt _)
    (fun c s => by
      by_cases hc : c = 1
      · simp only [Env.onRemoveOf, hc, if_true]; exact detach_length_le s 2 0
      · simp [Env.onRemoveOf, hc])
    (fun c s hs => by
      by_cases hc : c = 1
      · simp only [Env.onRemoveOf, hc, if_true]; exact detach_linkedAt 2 hs
      · simpa [Env.onRemoveOf, hc] using hs)
    (by decide)

theorem moveTo_isText (d : Dom) (u q : Nat) : (d.moveTo u q).isText = d.isText := by
  simp only [Dom.moveTo, Dom.detach]
  split <;> rfl

theorem moveTo_data (d : Dom) (u q : Nat) : (d.moveTo u q).data = d.data := by
  simp only [Dom.moveTo, Dom.detach]
  split <;> rfl

theorem moveTo_mem_children (d : Dom) (u q : Nat) : u ∈ (d.moveTo u q).children q := by
  simp [Dom.moveTo]

/-! ## Removal loops under handlers that take siblings out of the parent -/

theorem moveTo_parent_eq (d : Dom) (u q n : Nat) :
    (d.moveTo u q).parent n = if n = u then some q else d.parent n := by
  simp only [Dom.moveTo, Dom.detach]
  by_cases h : n = u
  · simp [h]
  · simp only [h, if_false]
    split <;> simp [h]

theorem moveTo_trace (d : Dom) (u q : Nat) : (d.moveTo u q).trace = d.trace := by
  simp only [Dom.moveTo, Dom.detach]
  split <;> rfl

theorem moveTo_children_erase {d : Dom} {p q : Nat} (u : Nat) (hqp : q ≠ p)
    (hu : u ∈ d.children p → d.parent u = some p) :
    (d.moveTo u q).children p = (d.children p).erase u := by
  have hpq : p ≠ q := fun e => hqp e.symm
  cases hpu : d.parent u with
  | none =>
    have hn : u ∉ d.children p := fun hm => by simp [hu hm] at hpu
    simp [Dom.moveTo, Dom.detach, hpu, hpq, List.erase_of_not_mem hn]
  | some r =>
    by_cases hr : r = p
    · subst hr
      simp [Dom.moveTo, Dom.detach, hpu, hpq]
    · have hn : u ∉ d.children p := fun hm => by
        rw [hu hm] at hpu
        exact hr (Option.some.inj hpu).symm
      have hpr : p ≠ r := fun e => hr e.symm
      simp [Dom.moveTo, Dom.detach, hpu, hpq, hpr, List.erase_of_not_mem hn]

theorem wellLinked_of_filter {s t : Dom} {p : Nat} (P : Nat → Prop) [DecidablePred P]
    (h : s.WellLinked p)
    (hc : t.children p = (s.children p).filter (fun y => decide (P y)))
    (hp : ∀ y, t.parent y = some p ↔ (s.parent y = some p ∧ P y)) : t.WellLinked p := by
  refine ⟨by rw [hc]; exact h.1.filter _, fun y => ?_⟩
  rw [hc, hp, List.mem_filter, h.2 y]
  simp

theorem unlink_children_filter {d : Dom} {p : Nat} (c : Nat) (h : d.WellLinked p) :
    (d.unlink p c).children p = (d.children p).filter (fun y => decide (y ≠ c)) := by
  simp only [Dom.unlink, if_true]
  rw [h.1.erase_eq_filter]
  congr 1
  funext y
  by_cases hy : y = c <;> simp [hy]

theorem unlink_wellLinked {d : Dom} {p : Nat} (c : Nat) (h : d.WellLinked p) :
    (d.unlink p c).WellLinked p := by
  refine wellLinked_of_filter (fun y => y ≠ c) h (unlink_children_filter c h) (fun y => ?_)
  by_cases hy : y = c
  · simp [Dom.unlink, hy]
  · simp [Dom.unlink, hy]

theorem moveAll_takesOut (p q : Nat) (hqp : q ≠ p) (vs : List Nat) :
    ∀ s : Dom, s.WellLinked p →
      (s.moveAll vs q).children p = (s.children p).filter (fun y => decide (y ∉ vs)) ∧
      (∀ y, (s.moveAll vs q).parent y = some p ↔ (s.parent y = some p ∧ y ∉ vs)) ∧
      (s.moveAll vs q).isText = s.isText ∧ (s.moveAll vs q).trace = s.trace := by
  induction vs with
  | nil => intro s _; simp [Dom.moveAll]
  | cons v vs ih =>
    intro s hs
    have hc1 : (s.moveTo v q).children p =
        (s.children p).filter (fun y => decide (y ≠ v)) := by
      rw [moveTo_children_erase v hqp (fun hm => (hs.2 v).1 hm), hs.1.erase_eq_filter]
      congr 1
      funext y
      by_cases hy : y = v <;> simp [hy]
    have hp1 : ∀ y, (s.moveTo v q).parent y = some p ↔ (s.parent y = some p ∧ y ≠ v) := by
      intro y
      rw [moveTo_parent_eq]
      by_cases hy : y = v
      · simp [hy, hqp]
      · simp [hy]
    have hs1 : (s.moveTo v q).WellLinked p := wellLinked_of_filter (fun y => y ≠ v) hs hc1 hp1
    obtain ⟨h1, h2, h3, h4⟩ := ih (s.moveTo v q) hs1
    have hfold : s.moveAll (v :: vs) q = (s.moveTo v q).moveAll vs q := rfl
    rw [hfold]
    refine ⟨?_, ?_, ?_, ?_⟩
    · rw [h1, hc1, List.filter_filter]
      congr 1
      funext y
      by_cases hy : y = v <;> simp [hy]
    · intro y
      rw [h2, hp1]
      simp only [List.mem_cons, not_or]
      tauto
    · rw [h3, moveTo_isText]
    · rw [h4, moveTo_trace]

theorem relocating_takesOut (R : Nat → List Nat) (p q : Nat) (hqp : q ≠ p) :
    (Env.relocating R q).TakesOut p R :=
  fun c s hs => moveAll_takesOut p q hqp (R c) s hs

theorem filter_split_fixed (P : Nat → Bool) (front cur rest : List Nat)
    (hf : ∀ y ∈ front, P y = true) (hr : ∀ y ∈ rest, P y = true) :
    (front ++ cur ++ rest).filter P = front ++ cur.filter P ++ rest := by
  rw [List.filter_append, List.filter_append, List.filter_eq_self.2 hf,
    List.filter_eq_self.2 hr]

theorem leftByLoopAux_nil (R : Nat → List Nat) (k : Nat) : leftByLoopAux R k [] = [] := by
  cases k <;> rfl

theorem removedByLoopAux_nil (R : Nat → List Nat) (k : Nat) :
    removedByLoopAux R k [] = [] := by
  cases k <;> rfl

/-- The tree after one iteration of a removal loop on the sibling `t`, under a handler
that takes the nodes of `R t` out of the parent. -/
theorem removeChild_takesOut (env : Env) (p : Nat) (R : Nat → List Nat) (t : Nat)
    (front cur rest : List Nat) (d : Dom) (hT : env.TakesOut p R)
    (hc : d.children p = front ++ (t :: cur) ++ rest) (hW : d.WellLinked p)
    (hR : ∀ v ∈ R t, v ∉ front ∧ v ∉ rest) :
    (removeChild env p t d).children p =
        front ++ cur.filter (fun y => decide (y ∉ R t)) ++ rest ∧
      (removeChild env p t d).WellLinked p ∧
      (∀ y, (removeChild env p t d).parent y = some p → y ∉ R t) ∧
      (removeChild env p t d).isText = d.isText ∧
      (removeChild env p t d).trace = d.trace ++ [Event.childRemoved p t] ∧
      d.nextSibling t = (cur ++ rest).head? := by
  have hndc : (front ++ t :: (cur ++ rest)).Nodup := by
    have := hW.1
    rw [hc] at this
    simpa using this
  have htf : t ∉ front := nodup_not_mem_left hndc
  have htp : d.parent t = some p := (hW.2 t).1 (by simp [hc])
  have hc' : d.children p = front ++ t :: (cur ++ rest) := by simp [hc]
  have hWu := unlink_wellLinked t hW
  have hcu : (d.unlink p t).children p = front ++ cur ++ rest := by
    simp only [Dom.unlink, if_true, hc', erase_split htf, List.append_assoc]
  obtain ⟨h1, h2, h3, h4⟩ := hT t (d.unlink p t) hWu
  have hrem : removeChild env p t d = env.onRemove t (d.unlink p t) := by
    simp [removeChild, htp]
  rw [hrem]
  have hcf : (env.onRemove t (d.unlink p t)).children p =
      front ++ cur.filter (fun y => decide (y ∉ R t)) ++ rest := by
    rw [h1, hcu]
    exact filter_split_fixed _ front cur rest
      (fun y hy => by
        simp only [decide_eq_true_eq]
        exact fun hm => (hR y hm).1 hy)
      (fun y hy => by
        simp only [decide_eq_true_eq]
        exact fun hm => (hR y hm).2 hy)
  refine ⟨hcf, wellLinked_of_filter (fun y => y ∉ R t) hWu h1 h2, fun y hy => ((h2 y).1 hy).2,
    ?_, ?_, nextSibling_of_split p front (cur ++ rest) htp hc' htf⟩
  · rw [h3]; rfl
  · rw [h4]; rfl

theorem removeLoop_at_stop (env : Env) (parent stop : Option Nat) (k : Nat) (d : Dom) :
    removeLoop env parent stop (k + 1) stop d = Except.ok d := by
  cases stop with
  | none => rfl
  | some z => simp [removeLoop]

/-- A removal loop of `replaceWholeText` over the siblings `cur`, between `front` and
`rest`, under a handler that takes siblings of `cur` out of the parent: the loop returns,
leaving `leftByLoopAux R k cur` in place, after calling `removeChild` on the nodes of
`removedByLoopAux R k cur`. -/
theorem removeLoop_takesOut (env : Env) (p : Nat) (R : Nat → List Nat) (stop : Option Nat)
    (front rest : List Nat) (hT : env.TakesOut p R) (hstop : rest.head? = stop) :
    ∀ (k : Nat) (cur : List Nat) (d : Dom),
      d.children p = front ++ cur ++ rest → d.WellLinked p →
      (∀ y ∈ cur, d.isText y = true) → (∀ y ∈ cur, some y ≠ stop) →
      (∀ t ∈ cur, ∀ v ∈ R t, v ∉ front ∧ v ∉ rest) → cur.length ≤ k →
      ∃ d', removeLoop env (some p) stop (k + 1) (cur ++ rest).head? d = Except.ok d' ∧
        d'.children p = front ++ leftByLoopAux R k cur ++ rest ∧ d'.WellLinked p ∧
        d'.isText = d.isText ∧
        d'.trace = d.trace ++ (removedByLoopAux R k cur).map (Event.childRemoved p) := by
  intro k
  induction k with
  | zero =>
    intro cur d hc hW _ _ _ hlen
    have hcur : cur = [] := List.length_eq_zero.1 (Nat.le_zero.1 hlen)
    subst hcur
    refine ⟨d, ?_, by simpa [leftByLoopAux] using hc, hW, rfl, by simp [removedByLoopAux]⟩
    rw [List.nil_append, hstop]
    exact removeLoop_at_stop env (some p) stop 0 d
  | succ k ih =>
    intro cur d hc hW htext hns hR hlen
    cases cur with
    | nil =>
      refine ⟨d, ?_, by simpa [leftByLoopAux] using hc, hW, rfl, by simp [removedByLoopAux]⟩
      rw [List.nil_append, hstop]
      exact removeLoop_at_stop env (some p) stop (k + 1) d
    | cons t cur =>
      obtain ⟨hc1, hW1, hout, ht1, htr1, hnext⟩ :=
        removeChild_takesOut env p R t front cur rest d hT hc hW (hR t (by simp))
      have htp : d.parent t = some p := (hW.2 t).1 (by simp [hc])
      have hguard : some t ≠ stop ∧ d.isText t = true ∧ d.parentNode t = some p :=
        ⟨hns t (by simp), htext t (by simp), htp⟩
      have hstep : removeLoop env (some p) stop (k + 1 + 1) ((t :: cur) ++ rest).head? d =
          removeLoop env (some p) stop (k + 1) (cur ++ rest).head? (removeChild env p t d) := by
        rw [List.cons_append, List.head?_cons, removeLoop, if_pos hguard, hnext]
      rw [hstep]
      cases cur with
      | nil =>
        obtain ⟨d', hd', hc', hW', ht', htr'⟩ := ih [] (removeChild env p t d)
          (by simpa using hc1) hW1 (by simp) (by simp) (by simp) (by simp)
        refine ⟨d', hd', ?_, hW', by rw [ht', ht1], ?_⟩
        · rw [hc', leftByLoopAux_nil]; rfl
        · rw [htr', htr1, removedByLoopAux_nil]; simp [removedByLoopAux]
      | cons u cur =>
        by_cases hu : u ∈ R t
        · have hstopu : ¬ (some u ≠ stop ∧ (removeChild env p t d).isText u = true ∧
              (removeChild env p t d).parentNode u = some p) := by
            rintro ⟨_, _, h3⟩
            exact hout u h3 hu
          refine ⟨removeChild env p t d, ?_, ?_, hW1, ht1, ?_⟩
          · rw [List.cons_append, List.head?_cons, removeLoop, if_neg hstopu]
          · rw [hc1]; simp [leftByLoopAux, hu]
          · rw [htr1]; simp [removedByLoopAux, hu]
        · have hfu : (u :: cur).filter (fun y => decide (y ∉ R t)) =
              u :: cur.filter (fun y => decide (y ∉ R t)) := by
            simp [List.filter_cons, hu]
          have hsub : ∀ y ∈ (u :: cur).filter (fun y => decide (y ∉ R t)), y ∈ t :: u :: cur :=
            fun y hy => List.mem_cons_of_mem _ (List.mem_filter.1 hy).1
          have hlen1 : ((u :: cur).filter (fun y => decide (y ∉ R t))).length ≤ k := by
            have := List.length_filter_le (fun y => decide (y ∉ R t)) (u :: cur)
            simp only [List.length_cons] at hlen this ⊢
            omega
          obtain ⟨d', hd', hc', hW', ht', htr'⟩ := ih _ (removeChild env p t d) hc1 hW1
            (fun y hy => by rw [ht1]; exact htext y (hsub y hy))
            (fun y hy => hns y (hsub y hy)) (fun y hy => hR y (hsub y hy)) hlen1
          refine ⟨d', ?_, ?_, hW', by rw [ht', ht1], ?_⟩
          · rw [← hd', hfu]; rfl
          · rw [hc']; simp [leftByLoopAux, hu]
          · rw [htr', htr1]; simp [removedByLoopAux, hu]

theorem leftByLoopAux_fuel (R : Nat → List Nat) :
    ∀ (k1 k2 : Nat) (l : List Nat), l.length ≤ k1 → l.length ≤ k2 →
      leftByLoopAux R k1 l = leftByLoopAux R k2 l := by
  intro k1
  induction k1 with
  | zero =>
    intro k2 l h1 _
    have hl : l = [] := List.length_eq_zero.1 (Nat.le_zero.1 h1)
    subst hl
    rw [leftByLoopAux_nil, leftByLoopAux_nil]
  | succ k1 ih =>
    intro k2 l h1 h2
    cases l with
    | nil => rw [leftByLoopAux_nil, leftByLoopAux_nil]
    | cons t rest =>
      obtain ⟨j, rfl⟩ : ∃ j, k2 = j + 1 := ⟨k2 - 1, by simp at h2; omega⟩
      cases rest with
      | nil => rfl
      | cons u r =>
        have hlen := List.length_filter_le (fun y => decide (y ∉ R t)) (u :: r)
        simp only [List.length_cons] at h1 h2 hlen
        simp only [leftByLoopAux]
        split_ifs
        · rfl
        · exact ih j _ (by omega) (by omega)

theorem removedByLoopAux_fuel (R : Nat → List Nat) :
    ∀ (k1 k2 : Nat) (l : List Nat), l.length ≤ k1 → l.length ≤ k2 →
      removedByLoopAux R k1 l = removedByLoopAux R k2 l := by
  intro k1
  induction k1 with
  | zero =>
    intro k2 l h1 _
    have hl : l = [] := List.length_eq_zero.1 (Nat.le_zero.1 h1)
    subst hl
    rw [removedByLoopAux_nil, removedByLoopAux_nil]
  | succ k1 ih =>
    intro k2 l h1 h2
    cases l with
    | nil => rw [removedByLoopAux_nil, removedByLoopAux_nil]
    | cons t rest =>
      obtain ⟨j, rfl⟩ : ∃ j, k2 = j + 1 := ⟨k2 - 1, by simp at h2; omega⟩
      cases rest with
      | nil => rfl
      | cons u r =>
        have hlen := List.length_filter_le (fun y => decide (y ∉ R t)) (u :: r)
        simp only [List.length_cons] at h1 h2 hlen
        simp only [removedByLoopAux]
        split_ifs
        · rfl
        · rw [ih j _ (by omega) (by omega)]

theorem leftByLoopAux_subset (R : Nat → List Nat) :
    ∀ (k : Nat) (l : List Nat), ∀ y ∈ leftByLoopAux R k l, y ∈ l := by
  intro k
  induction k with
  | zero => intro l y hy; exact hy
  | succ k ih =>
    intro l y hy
    cases l with
    | nil => simp [leftByLoopAux] at hy
    | cons t rest =>
      cases rest with
      | nil => simp [leftByLoopAux] at hy
      | cons u r =>
        simp only [leftByLoopAux] at hy
        split_ifs at hy
        · exact List.mem_cons_of_mem _ (List.mem_filter.1 hy).1
        · exact List.mem_cons_of_mem _ (List.mem_filter.1 (ih _ y hy)).1

/-- Membership facts that follow from the absence of duplicates in the child list
`a ++ run1 ++ x :: run2 ++ b`. -/
theorem run_nodup_facts (a run1 run2 b : List Nat) (x : Nat)
    (h : (a ++ run1 ++ x :: run2 ++ b).Nodup) :
    (∀ y ∈ run1, y ≠ x ∧ y ∉ a ∧ y ∉ run2 ∧ y ∉ b) ∧
    (∀ y ∈ run2, y ≠ x ∧ y ∉ a ∧ y ∉ run1 ∧ y ∉ b) ∧ x ∉ a ∧ x ∉ b := by
  have hcount : ∀ y, a.count y + run1.count y + (if x = y then 1 else 0) + run2.count y
      + b.count y ≤ 1 := by
    intro y
    have := List.nodup_iff_count_le_one.1 h y
    simp only [List.count_append, List.count_cons, List.count_nil, beq_iff_eq] at this
    omega
  have hm : ∀ (l : List Nat) (y : Nat), y ∈ l ↔ 1 ≤ l.count y :=
    fun l y => List.one_le_count_iff.symm
  refine ⟨fun y hy => ?_, fun y hy => ?_, ?_, ?_⟩
  · have h0 := hcount y
    rw [hm] at hy
    refine ⟨fun e => ?_, ?_, ?_, ?_⟩
    · rw [if_pos e.symm] at h0; omega
    all_goals rw [hm]; omega
  · have h0 := hcount y
    rw [hm] at hy
    refine ⟨fun e => ?_, ?_, ?_, ?_⟩
    · rw [if_pos e.symm] at h0; omega
    all_goals rw [hm]; omega
  · have h0 := hcount x
    rw [if_pos rfl] at h0
    rw [hm]; omega
  · have h0 := hcount x
    rw [if_pos rfl] at h0
    rw [hm]; omega

/-- Reading of `leftByLoop` and `removedByLoop`, stop case: when the handler run by the
removal of `t` takes out the sibling `u` that followed `t`, the loop removes `t` only;
the siblings after `u` that the handler did not take out are left. -/
theorem loop_stops_at_taken_out (R : Nat → List Nat) (t u : Nat) (rest : List Nat)
    (hu : u ∈ R t) :
    leftByLoop R (t :: u :: rest) = rest.filter (fun y => decide (y ∉ R t)) ∧
    removedByLoop R (t :: u :: rest) = [t] := by
  simp [leftByLoop, removedByLoop, leftByLoopAux, removedByLoopAux, hu]

/-- Reading of `leftByLoop` and `removedByLoop`, skip case: when the handler run by the
removal of `t` does not take out the sibling `u` that followed `t`, the loop goes on at
`u` with the siblings that the handler did not take out. -/
theorem loop_skips_taken_out (R : Nat → List Nat) (t u : Nat) (rest : List Nat)
    (hu : u ∉ R t) :
    leftByLoop R (t :: u :: rest) =
      leftByLoop R (u :: rest.filter (fun y => decide (y ∉ R t))) ∧
    removedByLoop R (t :: u :: rest) =
      t :: removedByLoop R (u :: rest.filter (fun y => decide (y ∉ R t))) := by
  have hlen := List.length_filter_le (fun y => decide (y ∉ R t)) rest
  have hf : (u :: rest).filter (fun y => decide (y ∉ R t)) =
      u :: rest.filter (fun y => decide (y ∉ R t)) := by
    simp [List.filter_cons, hu]
  have e1 : leftByLoopAux R (rest.length + 1 + 1) (t :: u :: rest) =
      if u ∈ R t then (u :: rest).filter (fun y => decide (y ∉ R t))
      else leftByLoopAux R (rest.length + 1)
        ((u :: rest).filter (fun y => decide (y ∉ R t))) := rfl
  have e2 : removedByLoopAux R (rest.length + 1 + 1) (t :: u :: rest) =
      if u ∈ R t then [t]
      else t :: removedByLoopAux R (rest.length + 1)
        ((u :: rest).filter (fun y => decide (y ∉ R t))) := rfl
  rw [if_neg hu, hf] at e1 e2
  constructor
  · show leftByLoopAux R (rest.length + 1 + 1) (t :: u :: rest) = _
    rw [e1]
    exact leftByLoopAux_fuel R _ _ _ (by rw [List.length_cons]; omega) (le_refl _)
  · show removedByLoopAux R (rest.length + 1 + 1) (t :: u :: rest) = _
    rw [e2]
    exact congrArg (List.cons t)
      (removedByLoopAux_fuel R _ _ _ (by rw [List.length_cons]; omega) (le_refl _))

/-- Reading of `leftByLoop` and `removedByLoop`, quiet case: when no handler takes
anything out, the loop removes every sibling of the list and leaves none. -/
theorem loop_without_takeout (R : Nat → List Nat) :
    ∀ (k : Nat) (l : List Nat), l.length ≤ k → (∀ t ∈ l, R t = []) →
      leftByLoopAux R k l = [] ∧ removedByLoopAux R k l = l := by
  intro k
  induction k with
  | zero =>
    intro l hl _
    have hnil : l = [] := List.length_eq_zero.1 (Nat.le_zero.1 hl)
    subst hnil
    exact ⟨rfl, rfl⟩
  | succ k ih =>
    intro l hl hq
    cases l with
    | nil => exact ⟨rfl, rfl⟩
    | cons t rest =>
      cases rest with
      | nil => exact ⟨rfl, rfl⟩
      | cons u r =>
        have hRt : R t = [] := hq t (by simp)
        have hf : (u :: r).filter (fun y => decide (y ∉ R t)) = u :: r := by
          simp [hRt]
        obtain ⟨h1, h2⟩ := ih (u :: r) (by simp only [List.length_cons] at hl ⊢; omega)
          (fun y hy => hq y (List.mem_cons_of_mem _ hy))
        have hu : u ∉ R t := by simp [hRt]
        constructor
        · simp only [leftByLoopAux, if_neg hu, hf]; exact h1
        · simp only [removedByLoopAux, if_neg hu, hf]; rw [h2]

/-- C9 (amended): for a removal handler that, run for the removal of a sibling `c`, takes
the siblings `R c` of the same side of the node out of the captured parent and does
nothing else to it, `replaceWholeText` completes, and each of its two removal loops goes
through the siblings of its side as `leftByLoop` and `removedByLoop` describe: it removes
the first sibling; when the sibling that followed it was taken out by the handler the loop
ends there, and the siblings after it on that side are not removed although they still
have the captured parent; otherwise it goes on with the siblings still under the parent,
skipping those taken out before they are reached.  After both loops the captured parent
holds the siblings before the run, those left by the first loop, the node, those left by
the second loop and the siblings after the run; `removeChild` has been called on the
siblings removed by the first loop and then on those removed by the second, and on no
other node; the child list and the parent links into the parent agree; and the node is
then removed (empty text) or receives the new data. -/
theorem replaceWholeText_removal_loops (env : Env) (d : Dom) (p x : Nat)
    (R : Nat → List Nat) (a run1 run2 b : List Nat) (newText : List Char) (fuel : Nat)
    (h : d.RunAt p x a run1 run2 b) (hlink : d.LinkedAt p) (hT : env.TakesOut p R)
    (hR1 : ∀ t ∈ run1, ∀ v ∈ R t, v ∈ run1) (hR2 : ∀ t ∈ run2, ∀ v ∈ R t, v ∈ run2)
    (hfuel : (d.children p).length < fuel) :
    ∃ dC, replaceWholeText env fuel x newText d = Except.ok
        (if newText.isEmpty then (none, removeChild env p x dC)
          else (some x, setData env x newText dC)) ∧
      dC.children p = a ++ leftByLoop R run1 ++ x :: leftByLoop R run2 ++ b ∧
      dC.trace = d.trace ++
        (removedByLoop R run1 ++ removedByLoop R run2).map (Event.childRemoved p) ∧
      (∀ y, y ∈ dC.children p ↔ dC.parent y = some p) ∧ dC.isText = d.isText := by
  have hndc : (a ++ run1 ++ x :: run2 ++ b).Nodup := by rw [← h.children_eq]; exact h.nodup
  have hlen : (a ++ run1 ++ x :: run2 ++ b).length < fuel := by
    rw [← h.children_eq]; exact hfuel
  simp only [List.length_append, List.length_cons] at hlen
  obtain ⟨hf1, hf2, hxa, hxb⟩ := run_nodup_facts a run1 run2 b x hndc
  have hW : d.WellLinked p := ⟨h.nodup, fun y => ⟨h.parents y, hlink y⟩⟩
  obtain ⟨k, rfl⟩ : ∃ k, fuel = k + 1 := ⟨fuel - 1, by omega⟩
  -- the first loop
  have hstart : some (run1.head?.getD x) = (run1 ++ (x :: run2 ++ b)).head? := by
    cases run1 <;> simp
  obtain ⟨d1, hd1, hc1, hW1, ht1, htr1⟩ := removeLoop_takesOut env p R (some x) a
    (x :: run2 ++ b) hT (by simp) k run1 d (by simp [h.children_eq]) hW h.text_run1
    (fun y hy e => (hf1 y hy).1 (Option.some.inj e))
    (fun t ht v hv => by
      have hv1 := hf1 v (hR1 t ht v hv)
      refine ⟨hv1.2.1, ?_⟩
      simp only [List.cons_append, List.mem_cons, List.mem_append, not_or]
      exact ⟨hv1.1, hv1.2.2.1, hv1.2.2.2⟩)
    (by omega)
  rw [← hstart] at hd1
  rw [leftByLoopAux_fuel R k run1.length run1 (by omega) (le_refl _)] at hc1
  rw [removedByLoopAux_fuel R k run1.length run1 (by omega) (le_refl _)] at htr1
  have hc1' : d1.children p = (a ++ leftByLoop R run1 ++ [x]) ++ run2 ++ b := by
    simp [hc1, leftByLoop]
  have hxp1 : d1.parent x = some p := (hW1.2 x).1 (by simp [hc1])
  -- the second loop
  have hloop2 : ∃ d2, (if x ≠ run2.getLast?.getD x then
        removeLoop env (some p) (d1.nextSibling (run2.getLast?.getD x)) (k + 1)
          (d1.nextSibling x) d1
      else Except.ok d1) = Except.ok d2 ∧
      d2.children p = (a ++ leftByLoop R run1 ++ [x]) ++ leftByLoop R run2 ++ b ∧
      d2.WellLinked p ∧ d2.isText = d1.isText ∧
      d2.trace = d1.trace ++ (removedByLoop R run2).map (Event.childRemoved p) := by
    rcases List.eq_nil_or_concat run2 with hr | ⟨r, z, hr⟩
    · subst hr
      exact ⟨d1, by simp, by simpa [leftByLoop, leftByLoopAux] using hc1', hW1, rfl,
        by simp [removedByLoop, removedByLoopAux]⟩
    · rw [List.concat_eq_append] at hr
      have hz : run2.getLast?.getD x = z := by rw [hr]; simp
      have hzm : z ∈ run2 := by rw [hr]; simp
      have hxz : x ≠ z := fun e => (hf2 z hzm).1 e.symm
      have hnd1 : ((a ++ leftByLoop R run1 ++ [x]) ++ run2 ++ b).Nodup := by
        rw [← hc1']; exact hW1.1
      have hc1z : d1.children p = (a ++ leftByLoop R run1 ++ x :: r) ++ z :: b := by
        rw [hc1', hr]; simp
      have hnz : d1.nextSibling z = b.head? :=
        nextSibling_of_split p (a ++ leftByLoop R run1 ++ x :: r) b
          ((hW1.2 z).1 (by simp [hc1z])) hc1z
          (nodup_not_mem_left (by rw [← hc1z]; exact hW1.1))
      have hc1x : d1.children p = (a ++ leftByLoop R run1) ++ x :: (run2 ++ b) := by
        rw [hc1']; simp
      have hnx : d1.nextSibling x = (run2 ++ b).head? :=
        nextSibling_of_split p (a ++ leftByLoop R run1) (run2 ++ b) hxp1 hc1x
          (nodup_not_mem_left (by rw [← hc1x]; exact hW1.1))
      obtain ⟨d2, hd2, hc2, hW2, ht2, htr2⟩ := removeLoop_takesOut env p R b.head?
        (a ++ leftByLoop R run1 ++ [x]) b hT rfl k run2 d1 hc1' hW1
        (fun y hy => by rw [ht1]; exact h.text_run2 y hy)
        (fun y hy e => (hf2 y hy).2.2.2 (List.mem_of_mem_head? e.symm))
        (fun t ht v hv => by
          have hv2 := hf2 v (hR2 t ht v hv)
          refine ⟨?_, hv2.2.2.2⟩
          simp only [List.mem_append, List.mem_singleton, not_or]
          exact ⟨⟨hv2.2.1, fun hm => hv2.2.2.1 (leftByLoopAux_subset R _ _ v hm)⟩, hv2.1⟩)
        (by omega)
      rw [leftByLoopAux_fuel R k run2.length run2 (by omega) (le_refl _)] at hc2
      rw [removedByLoopAux_fuel R k run2.length run2 (by omega) (le_refl _)] at htr2
      refine ⟨d2, ?_, hc2, hW2, ht2, htr2⟩
      rw [hz, if_pos hxz, hnz, hnx]
      exact hd2
  obtain ⟨d2, hd2, hc2, hW2, ht2, htr2⟩ := hloop2
  have hxp2 : d2.parent x = some p := (hW2.2 x).1 (by simp [hc2])
  refine ⟨d2, ?_, by simp [hc2], ?_, hW2.2, by rw [ht2, ht1]⟩
  · simp only [replaceWholeText, h.earliest (by omega : run1.length < k + 1),
      h.latest (by omega : run2.length < k + 1), Dom.parentNode, h.parent_self, hd1,
      replaceWholeTextTail, hd2, hxp2, if_true]
    by_cases he : newText.isEmpty = true <;> simp [he]
  · rw [htr2, htr1]
    simp [removedByLoop]

/-- C9 as stated fails: with the text siblings `1, 2, 3, 4` and a handler that relocates
node `2` into the element `5` when node `1` is removed, `replaceWholeText` on node `4`
removes node `1` only; node `3`, a text sibling between the start of the run and the
node that still has the captured parent, is not removed. -/
theorem replaceWholeText_sibling_after_relocated_kept :
    fourTextDom.children 0 = [1, 2, 3, 4, 5] ∧
    earliestLogicallyAdjacentTextNode fourTextDom 6 4 = Except.ok 1 ∧
    ∃ d', replaceWholeText (Env.onRemoveOf 1 (fun s => s.moveTo 2 5)) 6 4 ['X', 'Y']
        fourTextDom = Except.ok (some 4, d') ∧
      d'.children 0 = [3, 4, 5] ∧ d'.isText 3 = true ∧ d'.parent 3 = some 0 ∧
      d'.parent 2 = some 5 :=
  ⟨by decide, rfl, _, rfl, by decide, by decide, by decide, by decide⟩

/-- C9 (amended) evaluated on the text siblings `1 .. 8` before the element `9`, for
`replaceWholeText` on node `5` with a handler that relocates node `3` into `9` when node
`1` is removed, and node `7` when node `6` is removed.  The first loop skips node `3` and
removes `1`, `2` and `4`; the second loop removes `6`, stops at the relocated node `7`
and leaves node `8`, which still has the captured parent. -/
theorem replaceWholeText_removal_loops_witness :
    ∃ dC, replaceWholeText (Env.relocating eightTextMoves 9) 10 5 ['X'] eightTextDom =
        Except.ok (some 5, setData (Env.relocating eightTextMoves 9) 5 ['X'] dC) ∧
      dC.children 0 = [5, 8, 9] ∧
      dC.trace = [Event.childRemoved 0 1, Event.childRemoved 0 2, Event.childRemoved 0 4,
        Event.childRemoved 0 6] ∧
      dC.isText 8 = true ∧ dC.parent 8 = some 0 ∧
      dC.parent 3 ≠ some 0 ∧ dC.parent 7 ≠ some 0 := by
  obtain ⟨dC, h1, h2, h3, h4, h5⟩ :=
    replaceWholeText_removal_loops (Env.relocating eightTextMoves 9) eightTextDom 0 5
      eightTextMoves [] [1, 2, 3, 4] [6, 7, 8] [9] ['X'] 10
      ⟨by decide, by decide, by decide, by decide, by decide, by decide, by decide,
        by decide⟩
      (ofChildren_linkedAt _) (relocating_takesOut eightTextMoves 0 9 (by decide))
      (by decide) (by decide) (by decide)
  have hc : dC.children 0 = [5, 8, 9] := h2.trans (by decide)
  refine ⟨dC, h1, hc, h3.trans (by decide), by rw [h5]; decide, (h4 8).1 (by rw [hc]; decide),
    fun e => ?_, fun e => ?_⟩
  · have := (h4 3).2 e
    rw [hc] at this
    exact absurd this (by decide)
  · have := (h4 7).2 e
    rw [hc] at this
    exact absurd this (by decide)

/-- The run of `replaceWholeText` of the preceding evaluation, computed: the relocated
nodes `3` and `7` end up under the element `9`, in the order of their relocation. -/
theorem replaceWholeText_relocating_computed :
    ∃ d', replaceWholeText (Env.relocating eightTextMoves 9) 10 5 ['X'] eightTextDom =
        Except.ok (some 5, d') ∧
      d'.children 0 = [5, 8, 9] ∧ d'.children 9 = [3, 7] ∧ d'.data 5 = ['X'] :=
  ⟨_, rfl, by decide, by decide, by decide⟩

/-! ## Further properties of the adjacency scanner -/

/-- C13: if the previous sibling of a node is absent or not text-bearing and its next
sibling is absent or not text-bearing, then `earliestLogicallyAdjacentTextNode` and
`latestLogicallyAdjacentTextNode` both return the node itself (one unit of fuel is
enough). -/
theorem adjacent_text_node_self (d : Dom) (x fuel : Nat)
    (hprev : ∀ q ∈ d.previousSibling x, d.isText q = false)
    (hnext : ∀ q ∈ d.nextSibling x, d.isText q = false) (hfuel : 0 < fuel) :
    earliestLogicallyAdjacentTextNode d fuel x = Except.ok x ∧
    latestLogicallyAdjacentTextNode d fuel x = Except.ok x := by
  obtain ⟨k, rfl⟩ : ∃ k, fuel = k + 1 := ⟨fuel - 1, by omega⟩
  constructor
  · simp only [earliestLogicallyAdjacentTextNode, earliestLoop]
    cases h : d.previousSibling x with
    | none => rfl
    | some q => simp [hprev q (by simp [h])]
  · simp only [latestLogicallyAdjacentTextNode, latestLoop]
    cases h : d.nextSibling x with
    | none => rfl
    | some q => simp [hnext q (by simp [h])]

/-- C13 evaluated: between two elements a lone text node is its own earliest and latest
adjacent text node. -/
theorem adjacent_text_node_self_witness :
    earliestLogicallyAdjacentTextNode (Dom.ofChildren [(false, []), (true, ['a']), (false, [])])
      1 2 = Except.ok 2 ∧
    latestLogicallyAdjacentTextNode (Dom.ofChildren [(false, []), (true, ['a']), (false, [])])
      1 2 = Except.ok 2 :=
  adjacent_text_node_self (Dom.ofChildren [(false, []), (true, ['a']), (false, [])]) 2 1
    (by decide) (by decide) (by decide)

/-- The same run seen from another of its nodes. -/
theorem Dom.RunAt.reindex {d : Dom} {p x : Nat} {a run1 run2 b : List Nat}
    (h : d.RunAt p x a run1 run2 b) (s1 : List Nat) (z : Nat) (s2 : List Nat)
    (he : run1 ++ x :: run2 = s1 ++ z :: s2) : d.RunAt p z a s1 s2 b := by
  have hall : ∀ y ∈ s1 ++ z :: s2, d.isText y = true := by
    intro y hy
    rw [← he] at hy
    simp only [List.mem_append, List.mem_cons] at hy
    rcases hy with hy | rfl | hy
    · exact h.text_run1 y hy
    · exact h.text_self
    · exact h.text_run2 y hy
  refine ⟨?_, h.nodup, h.parents, hall z (by simp), fun y hy => hall y (by simp [hy]),
    fun y hy => hall y (by simp [hy]), h.left_boundary, h.right_boundary⟩
  have h1 : a ++ s1 ++ z :: s2 ++ b = a ++ (s1 ++ z :: s2) ++ b := by simp
  rw [h1, ← he, h.children_eq]; simp

/-- A node without a parent has no siblings. -/
theorem siblings_of_no_parent {d : Dom} {x : Nat} (h : d.parent x = none) :
    d.previousSibling x = none ∧ d.nextSibling x = none ∧
      TextNodeTraversal.nextSibling d x = none := by
  simp [Dom.previousSibling, Dom.nextSibling, TextNodeTraversal.nextSibling,
    Dom.siblingsBefore, Dom.siblingsAfter, h]

/-- The scans and `wholeText` on a text node without a parent. -/
theorem scans_of_no_parent {d : Dom} {x : Nat} (h : d.parent x = none) (fuel : Nat) :
    earliestLogicallyAdjacentTextNode d (fuel + 1) x = Except.ok x ∧
    latestLogicallyAdjacentTextNode d (fuel + 1) x = Except.ok x ∧
    wholeText d (fuel + 2) x = Except.ok (d.data x) := by
  obtain ⟨hp, hn, ht⟩ := siblings_of_no_parent h
  have he : ∀ k, earliestLogicallyAdjacentTextNode d (k + 1) x = Except.ok x := by
    intro k; simp [earliestLogicallyAdjacentTextNode, earliestLoop, hp]
  have hl : ∀ k, latestLogicallyAdjacentTextNode d (k + 1) x = Except.ok x := by
    intro k; simp [latestLogicallyAdjacentTextNode, latestLoop, hn]
  refine ⟨he fuel, hl fuel, ?_⟩
  simp [wholeText, he (fuel + 1), hl (fuel + 1), ht, wholeTextLoop]

/-- C14: on every text node of a tree whose child lists are finite lists without
duplicates and with consistent parent links, `earliestLogicallyAdjacentTextNode`,
`latestLogicallyAdjacentTextNode` and `wholeText` return a value once the fuel exceeds
the number of siblings.  All three are functions of the tree alone that yield a value
and no tree: the tree after a call is the tree before it. -/
theorem scans_terminate (d : Dom) (x fuel : Nat) (htext : d.isText x = true)
    (hwf : ∀ p, d.parent x = some p → x ∈ d.children p ∧ (d.children p).Nodup ∧
      ∀ y ∈ d.children p, d.parent y = some p)
    (hfuel : 1 < fuel ∧ ∀ p, d.parent x = some p → (d.children p).length < fuel) :
    ∃ e l w, earliestLogicallyAdjacentTextNode d fuel x = Except.ok e ∧
      latestLogicallyAdjacentTextNode d fuel x = Except.ok l ∧
      wholeText d fuel x = Except.ok w := by
  cases hp : d.parent x with
  | none =>
    obtain ⟨k, rfl⟩ : ∃ k, fuel = k + 2 := ⟨fuel - 2, by omega⟩
    obtain ⟨h1, h2, h3⟩ := scans_of_no_parent hp k
    obtain ⟨h1', h2', -⟩ := scans_of_no_parent hp (k + 1)
    exact ⟨x, x, d.data x, h1', h2', h3⟩
  | some p =>
    obtain ⟨hm, hnd, hpar⟩ := hwf p hp
    obtain ⟨pre, post, hc⟩ := List.append_of_mem hm
    have h := runAt_of_split d p x pre post hc hnd hpar htext
    generalize pre.rdropWhile d.isText = a at h
    generalize pre.rtakeWhile d.isText = r1 at h
    generalize post.takeWhile d.isText = r2 at h
    generalize post.dropWhile d.isText = b at h
    have hlen' : (d.children p).length < fuel := hfuel.2 p hp
    rw [h.children_eq] at hlen'
    exact ⟨_, _, _, h.earliest (by simp at hlen'; omega), h.latest (by simp at hlen'; omega),
      h.wholeText_eq (by simp at hlen' ⊢; omega)⟩

/-- C14 evaluated on the middle node of the siblings "ab", "cd", "ef". -/
theorem scans_terminate_witness :
    ∃ e l w, earliestLogicallyAdjacentTextNode abcdefDom 4 2 = Except.ok e ∧
      latestLogicallyAdjacentTextNode abcdefDom 4 2 = Except.ok l ∧
      wholeText abcdefDom 4 2 = Except.ok w :=
  scans_terminate abcdefDom 2 4 (by decide)
    (fun p hp => by
      have h0 : p = 0 := by
        have : abcdefDom.parent 2 = some 0 := by decide
        rw [this] at hp; exact (Option.some.inj hp).symm
      subst h0; exact ⟨by decide, by decide, by decide⟩)
    ⟨by decide, fun p hp => by
      have h0 : p = 0 := by
        have : abcdefDom.parent 2 = some 0 := by decide
        rw [this] at hp; exact (Option.some.inj hp).symm
      subst h0; decide⟩

/-- C18: for two text nodes `x` and `y` of one child list with only text-bearing siblings
between them, the scans and `wholeText` return the same values from `x` and from `y`;
and the results `e` and `l` of the scans are fixed by them: scanning from `e` gives `e`
and scanning from `l` gives `l`. -/
theorem adjacency_run_independent (d : Dom) (p x y : Nat) (pre mid post : List Nat)
    (fuel : Nat)
    (hc : d.children p = pre ++ x :: mid ++ y :: post) (hnd : (d.children p).Nodup)
    (hpar : ∀ z ∈ d.children p, d.parent z = some p) (hx : d.isText x = true)
    (hy : d.isText y = true) (hmid : ∀ z ∈ mid, d.isText z = true)
    (hfuel : (d.children p).length < fuel) :
    ∃ e l w,
      earliestLogicallyAdjacentTextNode d fuel x = Except.ok e ∧
      earliestLogicallyAdjacentTextNode d fuel y = Except.ok e ∧
      latestLogicallyAdjacentTextNode d fuel x = Except.ok l ∧
      latestLogicallyAdjacentTextNode d fuel y = Except.ok l ∧
      wholeText d fuel x = Except.ok w ∧ wholeText d fuel y = Except.ok w ∧
      earliestLogicallyAdjacentTextNode d fuel e = Except.ok e ∧
      latestLogicallyAdjacentTextNode d fuel l = Except.ok l := by
  have hc' : d.children p = pre ++ x :: (mid ++ y :: post) := by simp [hc]
  have h0 := runAt_of_split d p x pre (mid ++ y :: post) hc' hnd hpar hx
  rw [List.takeWhile_append_of_pos hmid, List.dropWhile_append_of_pos hmid,
    List.takeWhile_cons_of_pos hy, List.dropWhile_cons_of_pos hy] at h0
  generalize pre.rdropWhile d.isText = a at h0
  generalize pre.rtakeWhile d.isText = r1 at h0
  generalize post.takeWhile d.isText = r2 at h0
  generalize post.dropWhile d.isText = b at h0
  have hY := h0.reindex (r1 ++ x :: mid) y r2 (by simp)
  have hlen : (a ++ r1 ++ x :: (mid ++ y :: r2) ++ b).length < fuel := by
    rw [← h0.children_eq]; exact hfuel
  have hf : r1.length + mid.length + r2.length + 2 < fuel := by
    simp at hlen; omega
  -- the first and the last node of the run
  obtain ⟨e, s2, hes⟩ : ∃ e s2, r1 ++ x :: (mid ++ y :: r2) = [] ++ e :: s2 := by
    cases r1 with
    | nil => exact ⟨x, _, rfl⟩
    | cons z r => exact ⟨z, _, rfl⟩
  obtain ⟨s1, l, hls⟩ : ∃ s1 l, r1 ++ x :: (mid ++ y :: r2) = s1 ++ l :: [] := by
    rcases List.eq_nil_or_concat r2 with hr | ⟨r, z, hr⟩
    · exact ⟨r1 ++ x :: mid, y, by simp [hr]⟩
    · exact ⟨r1 ++ x :: (mid ++ y :: r), z, by simp [hr]⟩
  have hE := h0.reindex [] e s2 hes
  have hL := h0.reindex s1 l [] hls
  have hlen1 := congrArg List.length hes
  have hlen2 := congrArg List.length hls
  simp at hlen1 hlen2
  have hex : r1.head?.getD x = e := by
    cases r1 with
    | nil => simp at hes; simp [hes.1]
    | cons z r => simp at hes; simp [hes.1]
  have hey : (r1 ++ x :: mid).head?.getD y = e := by
    cases r1 with
    | nil => simp at hes; simp [hes.1]
    | cons z r => simp at hes; simp [hes.1]
  have hlast : (r1 ++ x :: (mid ++ y :: r2)).getLast? = some l := by rw [hls]; simp
  have hlx : (mid ++ y :: r2).getLast?.getD x = l := by
    have : (r1 ++ x :: (mid ++ y :: r2)).getLast? = (mid ++ y :: r2).getLast? := by
      rw [List.getLast?_append_cons, List.getLast?_cons]
      cases h : (mid ++ y :: r2).getLast? with
      | none => simp at h
      | some v => simp
    rw [← this, hlast]; rfl
  have hly : r2.getLast?.getD y = l := by
    have : (r1 ++ x :: (mid ++ y :: r2)).getLast? = some (r2.getLast?.getD y) := by
      have e1 : r1 ++ x :: (mid ++ y :: r2) = (r1 ++ x :: mid) ++ y :: r2 := by simp
      rw [e1, List.getLast?_append_cons, List.getLast?_cons]
    rw [hlast] at this
    exact (Option.some.inj this).symm
  refine ⟨e, l, (r1 ++ x :: (mid ++ y :: r2)).flatMap d.data, ?_, ?_, ?_, ?_, ?_, ?_, ?_, ?_⟩
  · rw [h0.earliest (by omega), hex]
  · rw [hY.earliest (by simp; omega), hey]
  · rw [h0.latest (by simp; omega), hlx]
  · rw [hY.latest (by omega), hly]
  · exact h0.wholeText_eq (by simp; omega)
  · rw [hY.wholeText_eq (by simp; omega)]; simp
  · have := hE.earliest (show ([] : List Nat).length < fuel by simp; omega)
    simpa using this
  · have := hL.latest (show ([] : List Nat).length < fuel by simp; omega)
    simpa using this

/-- C18 evaluated: from the first and from the last of the siblings "ab", "cd", "ef" the
scans and `wholeText` agree. -/
theorem adjacency_run_independent_witness :
    ∃ e l w,
      earliestLogicallyAdjacentTextNode abcdefDom 4 1 = Except.ok e ∧
      earliestLogicallyAdjacentTextNode abcdefDom 4 3 = Except.ok e ∧
      latestLogicallyAdjacentTextNode abcdefDom 4 1 = Except.ok l ∧
      latestLogicallyAdjacentTextNode abcdefDom 4 3 = Except.ok l ∧
      wholeText abcdefDom 4 1 = Except.ok w ∧ wholeText abcdefDom 4 3 = Except.ok w ∧
      earliestLogicallyAdjacentTextNode abcdefDom 4 e = Except.ok e ∧
      latestLogicallyAdjacentTextNode abcdefDom 4 l = Except.ok l :=
  adjacency_run_independent abcdefDom 0 1 3 [] [2] [] 4 (by decide) (by decide) (by decide)
    (by decide) (by decide) (by decide) (by decide)

/-! ## Collaborator calls of the split operator -/

@[simp] theorem splitBeforeInsert_trace (self offset : Nat) (d : Dom) :
    (splitBeforeInsert self offset d).trace =
      d.trace ++ [Event.contentModified self (d.data self) ((d.data self).take offset)] := by
  simp [splitBeforeInsert, dispatchModifiedEvent, setDataWithoutUpdate, virtualCreate]

@[simp] theorem splitBeforeInsert_renderer (self offset : Nat) (d : Dom) (n : Nat) :
    (splitBeforeInsert self offset d).renderer n =
      if n = d.fresh then false else d.renderer n := by
  simp [splitBeforeInsert, dispatchModifiedEvent, setDataWithoutUpdate, virtualCreate]

@[simp] theorem splitBeforeInsert_isText (self offset : Nat) (d : Dom) (n : Nat) :
    (splitBeforeInsert self offset d).isText n =
      if n = d.fresh then true else d.isText n := by
  simp [splitBeforeInsert, dispatchModifiedEvent, setDataWithoutUpdate, virtualCreate]

theorem splitAfterInsert_trace (self len : Nat) (d : Dom) :
    (splitAfterInsert self len d).trace =
      d.trace ++ Event.textNodeSplit self ::
        (if d.renderer self then [Event.setTextWithOffset self (d.data self) 0 len] else []) := by
  simp only [splitAfterInsert, textNodeSplit, setTextWithOffset]
  split <;> simp_all

@[simp] theorem splitAfterInsert_isText (self len : Nat) (d : Dom) :
    (splitAfterInsert self len d).isText = d.isText := by
  simp only [splitAfterInsert, textNodeSplit, setTextWithOffset]; split <;> rfl

theorem splitBeforeInsert_nextSibling (self offset p : Nat) (d : Dom)
    (hp : d.parent self = some p) (hself : self ≠ d.fresh) (hpa : p ≠ d.fresh) :
    (splitBeforeInsert self offset d).nextSibling self = d.nextSibling self := by
  simp [Dom.nextSibling, Dom.siblingsAfter, hp, hself, hpa]

/-- The value of `splitText` on a node without a parent, for a valid offset. -/
theorem splitText_eq_of_no_parent (env : Env) (d : Dom) (self offset : Nat)
    (hoff : offset ≤ d.length self) (hp : d.parent self = none) (hself : self ≠ d.fresh) :
    splitText env self offset d = (Except.ok d.fresh,
      splitAfterInsert self (d.data self).length (splitBeforeInsert self offset d)) := by
  have hle : ¬ offset > d.length self := by omega
  simp [splitText, hle, Dom.parentNode, hself, hp, virtualCreate]

/-- The value of `splitText` on a node with a parent, for a valid offset, in terms of the
result of the parent's `insertBefore`. -/
theorem splitText_eq_of_parent (env : Env) (d : Dom) (self offset p : Nat)
    (hoff : offset ≤ d.length self) (hp : d.parent self = some p) (hself : self ≠ d.fresh) :
    splitText env self offset d =
      match insertBefore env p d.fresh ((splitBeforeInsert self offset d).nextSibling self)
          (splitBeforeInsert self offset d) with
      | (some e, d4) => (Except.error (Exception.insertion e), d4)
      | (none, d4) => (Except.ok d.fresh, splitAfterInsert self (d.data self).length d4) := by
  have hle : ¬ offset > d.length self := by omega
  simp [splitText, hle, Dom.parentNode, hself, hp, virtualCreate]

/-- C16: for a text node without a parent and a valid offset, `splitText` succeeds and
attempts no insertion: it returns the new node, which holds `original[offset:]` and has
no parent and no siblings; the node holds `original[0:offset]`; every child list is as
before; and the calls made are the content-modified notification, the text-node-split
notification and, for a node with a renderer, the render update. -/
theorem splitText_no_parent (env : Env) (d : Dom) (self offset : Nat)
    (hoff : offset ≤ d.length self) (hp : d.parent self = none) (hself : self < d.fresh) :
    (splitText env self offset d).1 = Except.ok d.fresh ∧
    (splitText env self offset d).2.data d.fresh = (d.data self).drop offset ∧
    (splitText env self offset d).2.parent d.fresh = none ∧
    (splitText env self offset d).2.previousSibling d.fresh = none ∧
    (splitText env self offset d).2.nextSibling d.fresh = none ∧
    (splitText env self offset d).2.data self = (d.data self).take offset ∧
    (∀ q, q ≠ d.fresh → (splitText env self offset d).2.children q = d.children q) ∧
    (splitText env self offset d).2.trace =
      d.trace ++ [Event.contentModified self (d.data self) ((d.data self).take offset),
        Event.textNodeSplit self] ++
        (if d.renderer self
          then [Event.setTextWithOffset self ((d.data self).take offset) 0 (d.data self).length]
          else []) := by
  have hne : self ≠ d.fresh := by omega
  have hne' : d.fresh ≠ self := by omega
  rw [splitText_eq_of_no_parent env d self offset hoff hp hne]
  have hpf : (splitAfterInsert self (d.data self).length
      (splitBeforeInsert self offset d)).parent d.fresh = none := by simp
  obtain ⟨h1, h2, -⟩ := siblings_of_no_parent hpf
  refine ⟨rfl, by simp [hne'], hpf, h1, h2, by simp, fun q hq => by simp [hq], ?_⟩
  simp only [splitAfterInsert_trace, splitBeforeInsert_trace, splitBeforeInsert_renderer, hne,
    if_false, splitBeforeInsert_data, if_true]
  split <;> simp

/-- C16 evaluated: splitting the parentless node "hello" at 2 returns the new node `1`
holding "llo" and leaves "he", with no insertion among the calls. -/
theorem splitText_no_parent_witness :
    (splitText Env.quiet 0 2 orphanDom).1 = Except.ok 1 ∧
    (splitText Env.quiet 0 2 orphanDom).2.data 1 = ['l', 'l', 'o'] ∧
    (splitText Env.quiet 0 2 orphanDom).2.data 0 = ['h', 'e'] ∧
    (splitText Env.quiet 0 2 orphanDom).2.trace =
      [Event.contentModified 0 ['h', 'e', 'l', 'l', 'o'] ['h', 'e'], Event.textNodeSplit 0] :=
  have h := splitText_no_parent Env.quiet orphanDom 0 2 (by decide) (by decide) (by decide)
  ⟨h.1, h.2.1.trans (by decide), h.2.2.2.2.2.1.trans (by decide),
    h.2.2.2.2.2.2.2.trans (by decide)⟩

/-- C15: in `splitText` on a node with a parent and a renderer, for a valid offset, when the
insertion is accepted the calls are, in order: the content-modified notification, which
carries the full old data as prior value and finds the node already holding the
truncated data (so the silent truncation precedes it); the insertion of the new node
before the node's former next sibling; the text-node-split notification; and the render
update with the truncated data, offset 0 and the old length.  When the insertion fails,
the calls are the content-modified notification and the rejected insertion only. -/
theorem splitText_call_order (env : Env) (d : Dom) (self offset p : Nat)
    (hoff : offset ≤ d.length self) (hself : self < d.fresh) (hp : d.parent self = some p)
    (hpa : p < d.fresh) (hr : d.renderer self = true) :
    ((insertBefore env p d.fresh ((splitBeforeInsert self offset d).nextSibling self)
        (splitBeforeInsert self offset d)).1 = none →
      (splitText env self offset d).1 = Except.ok d.fresh ∧
      (splitText env self offset d).2.trace = d.trace ++
        [Event.contentModified self (d.data self) ((d.data self).take offset),
          Event.childInserted p d.fresh (d.nextSibling self),
          Event.textNodeSplit self,
          Event.setTextWithOffset self ((d.data self).take offset) 0 (d.data self).length]) ∧
    (∀ e, (insertBefore env p d.fresh ((splitBeforeInsert self offset d).nextSibling self)
        (splitBeforeInsert self offset d)).1 = some e →
      (splitText env self offset d).1 = Except.error (Exception.insertion e) ∧
      (splitText env self offset d).2.trace = d.trace ++
        [Event.contentModified self (d.data self) ((d.data self).take offset),
          Event.insertRejected p d.fresh e]) := by
  have hne : self ≠ d.fresh := by omega
  have hpne : p ≠ d.fresh := by omega
  have hnx := splitBeforeInsert_nextSibling self offset p d hp hne hpne
  refine ⟨?_, ?_⟩
  · intro hacc
    rw [splitText_eq_of_parent env d self offset p hoff hp hne, insertBefore_accept hacc]
    refine ⟨rfl, ?_⟩
    simp only [splitAfterInsert_trace, splitBeforeInsert_trace, splitBeforeInsert_renderer, hne,
      if_false, hr, if_true, splitBeforeInsert_data, hnx]
    simp
  · intro e hrej
    rw [splitText_eq_of_parent env d self offset p hoff hp hne, insertBefore_reject hrej]
    exact ⟨rfl, by simp⟩

/-- C15 evaluated: the calls of splitting the rendered node "hello" at 2, followed by an
element, in order. -/
theorem splitText_call_order_witness :
    (splitText Env.quiet 1 2 renderedHelloDom).2.trace =
      [Event.contentModified 1 ['h', 'e', 'l', 'l', 'o'] ['h', 'e'],
        Event.childInserted 0 3 (some 2),
        Event.textNodeSplit 1, Event.setTextWithOffset 1 ['h', 'e'] 0 5] :=
  ((splitText_call_order Env.quiet renderedHelloDom 1 2 0 (by decide) (by decide) (by decide)
    (by decide) (by decide)).1 rfl).2.trans (by decide)

/-- C11 as stated fails: splitting the parentless node "hello" at 2 succeeds and performs
no child insertion; every child list is empty before and after. -/
theorem splitText_without_insertion :
    (splitText Env.quiet 0 2 orphanDom).1 = Except.ok 1 ∧
    (splitText Env.quiet 0 2 orphanDom).2.trace =
      [Event.contentModified 0 ['h', 'e', 'l', 'l', 'o'] ['h', 'e'], Event.textNodeSplit 0] ∧
    (splitText Env.quiet 0 2 orphanDom).2.trace.countP Event.isChildInsertion = 0 ∧
    ((splitText Env.quiet 0 2 orphanDom).2.children 0 = [] ∧
      (splitText Env.quiet 0 2 orphanDom).2.children 1 = []) :=
  ⟨rfl, by decide, by decide, by decide, by decide⟩

/-- C11 (amended): every call of `splitText` on an existing node makes at most one child
insertion, at most one content-modified notification and at most one render update; it
makes exactly one child insertion when the offset is valid, the node has a parent and the
parent accepts the insertion, and none otherwise, in which case every child list is as
before. -/
theorem splitText_side_effects (env : Env) (d : Dom) (self offset : Nat)
    (hself : self < d.fresh) :
    ∃ delta, (splitText env self offset d).2.trace = d.trace ++ delta ∧
      delta.countP Event.isChildInsertion ≤ 1 ∧
      delta.countP Event.isContentChange ≤ 1 ∧
      delta.countP Event.isRenderUpdate ≤ 1 ∧
      (delta.countP Event.isChildInsertion = 1 ↔
        offset ≤ d.length self ∧ ∃ p, d.parent self = some p ∧
          (insertBefore env p d.fresh ((splitBeforeInsert self offset d).nextSibling self)
            (splitBeforeInsert self offset d)).1 = none) ∧
      (delta.countP Event.isChildInsertion = 0 →
        ∀ q, q ≠ d.fresh → (splitText env self offset d).2.children q = d.children q) := by
  have hne : self ≠ d.fresh := by omega
  by_cases hoff : offset ≤ d.length self
  · cases hp : d.parent self with
    | none =>
      rw [splitText_eq_of_no_parent env d self offset hoff hp hne]
      refine ⟨Event.contentModified self (d.data self) ((d.data self).take offset) ::
          Event.textNodeSplit self ::
        (if d.renderer self then
          [Event.setTextWithOffset self ((d.data self).take offset) 0 (d.data self).length]
          else []), ?_, ?_, ?_, ?_, ?_, ?_⟩
      · simp [splitAfterInsert_trace, hne]
      · split <;> simp [List.countP_cons, Event.isChildInsertion]
      · split <;> simp [List.countP_cons, Event.isContentChange]
      · split <;> simp [List.countP_cons, Event.isRenderUpdate]
      · split <;> simp [List.countP_cons, Event.isChildInsertion]
      · intro _ q hq; simp [hq]
    | some p =>
      rw [splitText_eq_of_parent env d self offset p hoff hp hne]
      cases hi : (insertBefore env p d.fresh ((splitBeforeInsert self offset d).nextSibling self)
          (splitBeforeInsert self offset d)).1 with
      | none =>
        rw [insertBefore_accept hi]
        refine ⟨Event.contentModified self (d.data self) ((d.data self).take offset) ::
          Event.childInserted p d.fresh ((splitBeforeInsert self offset d).nextSibling self) ::
          Event.textNodeSplit self ::
          (if d.renderer self then
            [Event.setTextWithOffset self ((d.data self).take offset) 0 (d.data self).length]
            else []), ?_, ?_, ?_, ?_, ?_, ?_⟩
        · simp [splitAfterInsert_trace, hne]
        · split <;> simp [List.countP_cons, Event.isChildInsertion]
        · split <;> simp [List.countP_cons, Event.isContentChange]
        · split <;> simp [List.countP_cons, Event.isRenderUpdate]
        · constructor
          · intro _; exact ⟨hoff, p, rfl, hi⟩
          · intro _; split <;> simp [List.countP_cons, Event.isChildInsertion]
        · intro h0
          exfalso
          revert h0
          split <;> simp [List.countP_cons, Event.isChildInsertion]
      | some e =>
        rw [insertBefore_reject hi]
        refine ⟨[Event.contentModified self (d.data self) ((d.data self).take offset),
          Event.insertRejected p d.fresh e],
          by simp, by simp [List.countP_cons, Event.isChildInsertion],
          by simp [List.countP_cons, Event.isContentChange],
          by simp [List.countP_cons, Event.isRenderUpdate], ?_, ?_⟩
        · simp [List.countP_cons, Event.isChildInsertion, hi]
        · intro _ q hq; simp [hq]
  · have hgt : offset > d.length self := by omega
    refine ⟨[], by simp [splitText, hgt], by simp, by simp, by simp, ?_, ?_⟩
    · simp [hoff]
    · intro _ q _; simp [splitText, hgt]

/-- C11 (amended) evaluated: splitting "hello", followed by an element, at 2 makes one
insertion. -/
theorem splitText_side_effects_witness :
    ∃ delta, (splitText Env.quiet 1 2 helloBrDom).2.trace = helloBrDom.trace ++ delta ∧
      delta.countP Event.isChildInsertion ≤ 1 ∧
      delta.countP Event.isContentChange ≤ 1 ∧
      delta.countP Event.isRenderUpdate ≤ 1 :=
  have ⟨delta, h1, h2, h3, h4, _⟩ :=
    splitText_side_effects Env.quiet helloBrDom 1 2 (by decide)
  ⟨delta, h1, h2, h3, h4⟩

/-! ## Split and whole text -/

/-- The run of a node after an accepted split: the new node follows the node inside the
run, and the data of the two together is the node's former data. -/
theorem Dom.RunAt.after_split {d : Dom} {p x : Nat} {a run1 run2 b : List Nat}
    (h : d.RunAt p x a run1 run2 b) (env : Env) (offset : Nat)
    (hoff : offset ≤ d.length x) (hpa : p < d.fresh) (hfresh : d.fresh ∉ d.children p)
    (hins : (insertBefore env p d.fresh ((splitBeforeInsert x offset d).nextSibling x)
      (splitBeforeInsert x offset d)).1 = none) :
    (splitText env x offset d).1 = Except.ok d.fresh ∧
    (splitText env x offset d).2.RunAt p x a run1 (d.fresh :: run2) b ∧
    (run1 ++ x :: d.fresh :: run2).flatMap (splitText env x offset d).2.data =
      (run1 ++ x :: run2).flatMap d.data := by
  have hc : d.children p = (a ++ run1) ++ x :: (run2 ++ b) := by simp [h.children_eq]
  have hnd := h.nodup
  have hfr := hfresh
  rw [hc] at hnd hfr
  have hxf : x ≠ d.fresh := fun e => hfr (by simp [e])
  have hval := splitText_eq_of_accepted env d x offset p (a ++ run1) (run2 ++ b) hoff
    h.parent_self hpa hc h.nodup hfresh hins
  have hmem : ∀ y, y ∈ d.children p → y ≠ d.fresh := fun y hy e => hfresh (e ▸ hy)
  have hch : (splitText env x offset d).2.children p =
      a ++ run1 ++ x :: (d.fresh :: run2) ++ b := by
    rw [hval]; simp
  have hpar : ∀ n, (splitText env x offset d).2.parent n =
      if n = d.fresh then some p else d.parent n := by
    intro n; rw [hval]; simp only [splitAfterInsert_parent, splitBeforeInsert_parent]
    by_cases hn : n = d.fresh <;> simp [hn]
  have htx : ∀ n, (splitText env x offset d).2.isText n =
      if n = d.fresh then true else d.isText n := by
    intro n; rw [hval]; simp
  have hdata : ∀ n, (splitText env x offset d).2.data n =
      if n = x then (d.data x).take offset
      else if n = d.fresh then (d.data x).drop offset else d.data n := by
    intro n; rw [hval]; simp
  have hp1 : (a ++ run1 ++ x :: (d.fresh :: run2) ++ b).Perm
      (d.fresh :: ((a ++ run1) ++ x :: (run2 ++ b))) := by
    rw [List.perm_iff_count]
    intro z
    simp only [List.count_append, List.count_cons, List.count_nil]
    omega
  have hnd' : (a ++ run1 ++ x :: (d.fresh :: run2) ++ b).Nodup :=
    hp1.nodup_iff.2 (List.nodup_cons.2 ⟨hfr, hnd⟩)
  have hx1 : x ∉ run1 := by
    have : ((a ++ run1) ++ x :: (run2 ++ b)).Nodup := hnd
    exact fun hm => nodup_not_mem_left this (List.mem_append_right _ hm)
  have hx2 : x ∉ run2 := by
    have : ((a ++ run1) ++ x :: (run2 ++ b)).Nodup := hnd
    exact fun hm => nodup_not_mem_right this (List.mem_append_left _ hm)
  refine ⟨by rw [hval], ⟨hch, by rw [hch]; exact hnd', ?_, ?_, ?_, ?_, ?_, ?_⟩, ?_⟩
  · intro y hy
    rw [hch] at hy
    rw [hpar]
    by_cases hyf : y = d.fresh
    · simp [hyf]
    · rw [if_neg hyf]
      exact h.parents y (by rw [h.children_eq]; simp at hy ⊢; tauto)
  · rw [htx, if_neg hxf]; exact h.text_self
  · intro y hy
    rw [htx, if_neg (hmem y (by rw [h.children_eq]; simp [hy]))]
    exact h.text_run1 y hy
  · intro y hy
    rw [htx]
    by_cases hyf : y = d.fresh
    · simp [hyf]
    · rw [if_neg hyf]
      exact h.text_run2 y (by simpa [hyf] using hy)
  · intro q hq
    rw [htx, if_neg (hmem q (by rw [h.children_eq]; simp [List.mem_of_mem_getLast? hq]))]
    exact h.left_boundary q hq
  · intro q hq
    rw [htx, if_neg (hmem q (by rw [h.children_eq]; simp [List.mem_of_mem_head? hq]))]
    exact h.right_boundary q hq
  · have e1 : run1.flatMap (splitText env x offset d).2.data = run1.flatMap d.data := by
      apply List.flatMap_congr
      intro y hy
      have hyx : y ≠ x := fun e => hx1 (e ▸ hy)
      rw [hdata, if_neg hyx, if_neg (hmem y (by rw [h.children_eq]; simp [hy]))]
    have e2 : run2.flatMap (splitText env x offset d).2.data = run2.flatMap d.data := by
      apply List.flatMap_congr
      intro y hy
      have hyx : y ≠ x := fun e => hx2 (e ▸ hy)
      rw [hdata, if_neg hyx, if_neg (hmem y (by rw [h.children_eq]; simp [hy]))]
    have hfx : d.fresh ≠ x := fun e => hxf e.symm
    simp only [List.flatMap_append, List.flatMap_cons, e1, e2, hdata, if_true, if_neg hfx,
      ← List.append_assoc, List.take_append_drop]

/-- C17: for a text node `x` with a parent, a valid offset and an insertion the parent
accepts, `wholeText` of `x` and of the returned node after `splitText` both equal
`wholeText` of `x` before it. -/
theorem splitText_preserves_wholeText (env : Env) (d : Dom) (p x : Nat)
    (a run1 run2 b : List Nat) (offset fuel : Nat)
    (h : d.RunAt p x a run1 run2 b)
    (hoff : offset ≤ d.length x) (hpa : p < d.fresh) (hfresh : d.fresh ∉ d.children p)
    (hins : (insertBefore env p d.fresh ((splitBeforeInsert x offset d).nextSibling x)
      (splitBeforeInsert x offset d)).1 = none)
    (hfuel : (d.children p).length + 1 < fuel) :
    ∃ w, wholeText d fuel x = Except.ok w ∧
      (splitText env x offset d).1 = Except.ok d.fresh ∧
      wholeText (splitText env x offset d).2 fuel x = Except.ok w ∧
      wholeText (splitText env x offset d).2 fuel d.fresh = Except.ok w := by
  obtain ⟨hok, hrun, hdata⟩ := h.after_split env offset hoff hpa hfresh hins
  have hlen : (a ++ run1 ++ x :: run2 ++ b).length + 1 < fuel := by
    rw [← h.children_eq]; exact hfuel
  have hf : run1.length + run2.length + 2 < fuel := by simp at hlen; omega
  have hnew := hrun.reindex (run1 ++ [x]) d.fresh run2 (by simp)
  refine ⟨_, h.wholeText_eq (by simp; omega), hok, ?_, ?_⟩
  · rw [hrun.wholeText_eq (by simp; omega), hdata]
  · rw [hnew.wholeText_eq (by simp; omega), ← hdata]; simp

/-- C17 evaluated: after splitting "cd" at 1 among the siblings "ab", "cd", "ef", the whole
text of both halves is still "abcdef". -/
theorem splitText_preserves_wholeText_witness :
    wholeText (splitText Env.quiet 2 1 abcdefDom).2 5 2 =
      Except.ok ['a', 'b', 'c', 'd', 'e', 'f'] ∧
    wholeText (splitText Env.quiet 2 1 abcdefDom).2 5 4 =
      Except.ok ['a', 'b', 'c', 'd', 'e', 'f'] := by
  obtain ⟨w, h1, _, h3, h4⟩ := splitText_preserves_wholeText Env.quiet abcdefDom 0 2
    [] [1] [3] [] 1 5
    ⟨by decide, by decide, by decide, by decide, by decide, by decide, by decide, by decide⟩
    (by decide) (by decide) (by decide) rfl (by decide)
  have hw : w = ['a', 'b', 'c', 'd', 'e', 'f'] := by
    have h0 : wholeText abcdefDom 5 2 = Except.ok ['a', 'b', 'c', 'd', 'e', 'f'] := rfl
    rw [h0] at h1
    exact (Except.ok.inj h1).symm
  rw [hw] at h3 h4
  exact ⟨h3, h4⟩

/-! ## Frame and round trip of the replace-whole-text operator -/

/-- A run carries over to a tree with the same child list of `p`, parent links and
kinds. -/
theorem Dom.RunAt.congr {d : Dom} {p x : Nat} {a run1 run2 b : List Nat}
    (h : d.RunAt p x a run1 run2 b) (d' : Dom) (hc : d'.children p = d.children p)
    (hp : d'.parent = d.parent) (ht : d'.isText = d.isText) :
    d'.RunAt p x a run1 run2 b :=
  ⟨by rw [hc]; exact h.children_eq, by rw [hc]; exact h.nodup,
    by rw [hc, hp]; exact h.parents, by rw [ht]; exact h.text_self,
    by rw [ht]; exact h.text_run1, by rw [ht]; exact h.text_run2,
    by rw [ht]; exact h.left_boundary, by rw [ht]; exact h.right_boundary⟩

theorem unlinkAll_trace (p : Nat) (run : List Nat) :
    ∀ d : Dom, (d.unlinkAll p run).trace = d.trace ++ run.map (Event.childRemoved p) := by
  induction run with
  | nil => intro d; simp
  | cons t run ih => intro d; rw [unlinkAll_cons, ih]; simp [Dom.unlink]

/-- The tree after the two removal loops of `replaceWholeText` without handlers: the node
alone is left of its run, between the same boundary siblings, and no data, kind or other
child list has changed. -/
theorem Dom.RunAt.after_loops {d : Dom} {p x : Nat} {a run1 run2 b : List Nat}
    (h : d.RunAt p x a run1 run2 b) :
    ((d.unlinkAll p run1).unlinkAll p run2).RunAt p x a [] [] b ∧
    ((d.unlinkAll p run1).unlinkAll p run2).data = d.data ∧
    ((d.unlinkAll p run1).unlinkAll p run2).isText = d.isText ∧
    (∀ q, q ≠ p → ((d.unlinkAll p run1).unlinkAll p run2).children q = d.children q) ∧
    (∀ y ∈ a ++ x :: b, ((d.unlinkAll p run1).unlinkAll p run2).parent y = some p) := by
  have hndc : (a ++ run1 ++ x :: run2 ++ b).Nodup := by rw [← h.children_eq]; exact h.nodup
  have hperm : (a ++ run1 ++ x :: run2 ++ b).Perm ((run1 ++ run2) ++ (a ++ x :: b)) := by
    rw [List.perm_iff_count]
    intro z
    simp only [List.count_append, List.count_cons, List.count_nil]
    omega
  have hsplit := List.nodup_append.1 (hperm.nodup_iff.1 hndc)
  have hisT : ((d.unlinkAll p run1).unlinkAll p run2).isText = d.isText := by
    rw [unlinkAll_isText, unlinkAll_isText]
  have hpar : ∀ y ∈ a ++ x :: b, ((d.unlinkAll p run1).unlinkAll p run2).parent y = some p := by
    intro y hy
    have hn : y ∉ run1 ++ run2 := fun hm => hsplit.2.2 hm hy
    simp only [List.mem_append, not_or] at hn
    rw [unlinkAll_parent, if_neg hn.2, unlinkAll_parent, if_neg hn.1]
    exact h.parents y (by rw [h.children_eq]; simp at hy ⊢; tauto)
  refine ⟨⟨by rw [h.children_after_loops]; simp, ?_, ?_, ?_, by simp, by simp, ?_, ?_⟩,
    by rw [unlinkAll_data, unlinkAll_data], hisT,
    fun q hq => by rw [unlinkAll_children_ne p run2 _ q hq, unlinkAll_children_ne p run1 _ q hq],
    hpar⟩
  · rw [h.children_after_loops]; exact hsplit.2.1
  · rw [h.children_after_loops]; exact hpar
  · rw [hisT]; exact h.text_self
  · rw [hisT]; exact h.left_boundary
  · rw [hisT]; exact h.right_boundary

/-- What `setData` does when no handler acts. -/
theorem setData_quiet {env : Env} (hq : env.NoHandlers) (x : Nat) (s : List Char) (d : Dom) :
    setData env x s d =
      { d with
        data := fun n => if n = x then s else d.data n
        trace := d.trace
          ++ (if d.renderer x then [Event.textRendererUpdated x 0 (d.data x).length] else [])
          ++ [Event.contentModified x (d.data x) s] } := by
  simp only [setData, hq.2]

/-- C19: for a text node `x` whose run is `run1 ++ x :: run2` between the siblings `a` and
`b`, and an environment without handlers, after `replaceWholeText` the parent's child
list is `a`, then `x` if the new text is not empty, then `b`: the siblings outside the
run are all there in their former order; they keep their parent link, kind and data; no
other child list changes and no node other than `x` changes its data. -/
theorem replaceWholeText_frame (env : Env) (d : Dom) (p x : Nat)
    (a run1 run2 b : List Nat) (newText : List Char) (fuel : Nat)
    (h : d.RunAt p x a run1 run2 b) (hq : env.NoHandlers)
    (hfuel : (d.children p).length < fuel) :
    ∃ r d', replaceWholeText env fuel x newText d = Except.ok (r, d') ∧
      d'.children p = a ++ (if newText.isEmpty then [] else [x]) ++ b ∧
      (∀ y ∈ a ++ b, d'.parent y = some p ∧ d'.isText y = d.isText y ∧
        d'.data y = d.data y) ∧
      (∀ q, q ≠ p → d'.children q = d.children q) ∧
      (∀ y, y ≠ x → d'.data y = d.data y) := by
  obtain ⟨hrun, hdata, hisT, hother, hpar⟩ := h.after_loops
  have hval := h.replaceWholeText_eq env newText (fun y _ s => hq.1 y s) hfuel
  have hxab : ∀ y ∈ a ++ b, y ≠ x := by
    intro y hy e
    exact h.not_mem_boundary x (by simp) (e ▸ hy)
  by_cases he : newText.isEmpty = true
  · rw [if_pos he] at hval
    refine ⟨none, _, hval, ?_, ?_, ?_, ?_⟩
    · have hxa : x ∉ a := fun hm => hxab x (by simp [hm]) rfl
      simp [Dom.unlink, h.children_after_loops, erase_split hxa, he]
    · intro y hy
      have hyx := hxab y hy
      refine ⟨?_, ?_, ?_⟩
      · simp only [Dom.unlink, hyx, if_false]
        exact hpar y (by simp at hy ⊢; tauto)
      · show ((d.unlinkAll p run1).unlinkAll p run2).isText y = d.isText y
        rw [hisT]
      · show ((d.unlinkAll p run1).unlinkAll p run2).data y = d.data y
        rw [hdata]
    · intro q hq'
      simp only [Dom.unlink, hq', if_false]; exact hother q hq'
    · intro y _
      show ((d.unlinkAll p run1).unlinkAll p run2).data y = d.data y
      rw [hdata]
  · rw [if_neg he, setData_quiet hq] at hval
    refine ⟨some x, _, hval, ?_, ?_, ?_, ?_⟩
    · simp [h.children_after_loops, he]
    · intro y hy
      have hyx := hxab y hy
      refine ⟨hpar y (by simp at hy ⊢; tauto), ?_, ?_⟩
      · show ((d.unlinkAll p run1).unlinkAll p run2).isText y = d.isText y
        rw [hisT]
      · simp only [hyx, if_false]; rw [hdata]
    · intro q hq'; exact hother q hq'
    · intro y hy
      simp only [hy, if_false]; rw [hdata]

/-- C19 evaluated: `replaceWholeText` with the empty text on the middle of the run "ab",
"cd", "ef" between two elements leaves the two elements, in order. -/
theorem replaceWholeText_frame_witness :
    ∃ r d', replaceWholeText Env.quiet 6 3 [] mixedDom = Except.ok (r, d') ∧
      d'.children 0 = [1, 5] ∧ d'.parent 1 = some 0 ∧ d'.parent 5 = some 0 := by
  obtain ⟨r, d', h1, h2, h3, _⟩ := replaceWholeText_frame Env.quiet mixedDom 0 3
    [1] [2] [4] [5] [] 6
    ⟨by decide, by decide, by decide, by decide, by decide, by decide, by decide, by decide⟩
    ⟨fun _ _ => rfl, fun _ _ => rfl⟩ (by decide)
  exact ⟨r, d', h1, h2, (h3 1 (by simp)).1, (h3 5 (by simp)).1⟩

/-- C20: for a text node `x` with a parent, a non-empty string `s` and an environment
without handlers, after `replaceWholeText` the call `wholeText` on `x` returns exactly
`s`, and both scans return `x`. -/
theorem replaceWholeText_then_wholeText (env : Env) (d : Dom) (p x : Nat)
    (a run1 run2 b : List Nat) (s : List Char) (fuel : Nat)
    (h : d.RunAt p x a run1 run2 b) (hq : env.NoHandlers) (hs : s ≠ [])
    (hfuel : (d.children p).length < fuel) :
    ∃ d', replaceWholeText env fuel x s d = Except.ok (some x, d') ∧
      wholeText d' fuel x = Except.ok s ∧
      earliestLogicallyAdjacentTextNode d' fuel x = Except.ok x ∧
      latestLogicallyAdjacentTextNode d' fuel x = Except.ok x := by
  obtain ⟨hrun, -, -, -, -⟩ := h.after_loops
  have hse : s.isEmpty = false := by cases s <;> simp_all
  have hval := h.replaceWholeText_eq env s (fun y _ t => hq.1 y t) hfuel
  simp only [hse, Bool.false_eq_true, if_false] at hval
  rw [setData_quiet hq] at hval
  have hrun' := hrun.congr { ((d.unlinkAll p run1).unlinkAll p run2) with
        data := fun n => if n = x then s else ((d.unlinkAll p run1).unlinkAll p run2).data n
        trace := ((d.unlinkAll p run1).unlinkAll p run2).trace
          ++ (if ((d.unlinkAll p run1).unlinkAll p run2).renderer x
              then [Event.textRendererUpdated x 0
                (((d.unlinkAll p run1).unlinkAll p run2).data x).length] else [])
          ++ [Event.contentModified x (((d.unlinkAll p run1).unlinkAll p run2).data x) s] }
    rfl rfl rfl
  have hpos : 0 < fuel := by omega
  have h1 : 1 < fuel := by
    have := hfuel
    rw [h.children_eq] at this
    simp at this; omega
  refine ⟨_, hval, ?_, ?_, ?_⟩
  · rw [hrun'.wholeText_eq (by simpa using h1)]; simp
  · have := hrun'.earliest (show ([] : List Nat).length < fuel by simpa using hpos)
    simpa using this
  · have := hrun'.latest (show ([] : List Nat).length < fuel by simpa using hpos)
    simpa using this

/-- C20 evaluated: after `replaceWholeText` with "XY" on the middle of the run "ab", "cd",
"ef", the whole text of that node is "XY". -/
theorem replaceWholeText_then_wholeText_witness :
    ∃ d', replaceWholeText Env.quiet 6 3 ['X', 'Y'] mixedDom = Except.ok (some 3, d') ∧
      wholeText d' 6 3 = Except.ok ['X', 'Y'] ∧
      earliestLogicallyAdjacentTextNode d' 6 3 = Except.ok 3 ∧
      latestLogicallyAdjacentTextNode d' 6 3 = Except.ok 3 :=
  replaceWholeText_then_wholeText Env.quiet mixedDom 0 3 [1] [2] [4] [5] ['X', 'Y'] 6
    ⟨by decide, by decide, by decide, by decide, by decide, by decide, by decide, by decide⟩
    ⟨fun _ _ => rfl, fun _ _ => rfl⟩ (by decide) (by decide)

/-! ## Totality of the replace-whole-text operator -/

/-- Under the handler that puts a removed child back before node `3`, the first removal
loop on the children `1, 2, 3` alternates between two situations and never ends. -/
theorem removeLoop_reinserting_diverges (fuel : Nat) :
    ∀ d : Dom, d.parent 1 = some 0 → d.parent 2 = some 0 → d.isText 1 = true →
      d.isText 2 = true →
      (d.children 0 = [1, 2, 3] →
        removeLoop (Env.reinserting 0 3) (some 0) (some 3) fuel (some 1) d =
          Except.error Fault.outOfFuel) ∧
      (d.children 0 = [2, 1, 3] →
        removeLoop (Env.reinserting 0 3) (some 0) (some 3) fuel (some 2) d =
          Except.error Fault.outOfFuel) := by
  induction fuel with
  | zero => intro d _ _ _ _; exact ⟨fun _ => rfl, fun _ => rfl⟩
  | succ fuel ih =>
    intro d hp1 hp2 ht1 ht2
    constructor
    · intro hc
      have hg : some 1 ≠ some 3 ∧ d.isText 1 = true ∧ d.parentNode 1 = some 0 :=
        ⟨by decide, ht1, hp1⟩
      have hnext : d.nextSibling 1 = some 2 := by
        rw [nextSibling_of_split 0 [] [2, 3] hp1 (by simp [hc]) (by simp)]; rfl
      have hrem : removeChild (Env.reinserting 0 3) 0 1 d = (d.unlink 0 1).link 0 1 (some 3) := by
        simp [removeChild, hp1, Env.reinserting]
      rw [removeLoop, if_pos hg, hnext, hrem]
      refine (ih _ ?_ ?_ ?_ ?_).2 ?_
      · simp [Dom.link]
      · simp [Dom.link, Dom.unlink, hp2]
      · exact ht1
      · exact ht2
      · simp [Dom.link, Dom.unlink, hc, insertBeforeIn]
    · intro hc
      have hg : some 2 ≠ some 3 ∧ d.isText 2 = true ∧ d.parentNode 2 = some 0 :=
        ⟨by decide, ht2, hp2⟩
      have hnext : d.nextSibling 2 = some 1 := by
        rw [nextSibling_of_split 0 [] [1, 3] hp2 (by simp [hc]) (by simp)]; rfl
      have hrem : removeChild (Env.reinserting 0 3) 0 2 d = (d.unlink 0 2).link 0 2 (some 3) := by
        simp [removeChild, hp2, Env.reinserting]
      rw [removeLoop, if_pos hg, hnext, hrem]
      refine (ih _ ?_ ?_ ?_ ?_).1 ?_
      · simp [Dom.link, Dom.unlink, hp1]
      · simp [Dom.link]
      · exact ht1
      · exact ht2
      · simp [Dom.link, Dom.unlink, hc, insertBeforeIn]

/-- C12 as stated fails: on the text children `1, 2, 3` with a removal handler that puts
every removed child back before node `3`, `replaceWholeText` on node `3` returns for no
amount of fuel: its first loop removes `1` and `2` in turn for ever. -/
theorem replaceWholeText_reinserting_diverges :
    abcdefDom.children 0 = [1, 2, 3] ∧
    ∀ fuel newText, replaceWholeText (Env.reinserting 0 3) fuel 3 newText abcdefDom =
      Except.error Fault.outOfFuel := by
  refine ⟨by decide, ?_⟩
  intro fuel newText
  by_cases hf : 3 < fuel
  · have h : abcdefDom.RunAt 0 3 [] [1, 2] [] [] :=
      ⟨by decide, by decide, by decide, by decide, by decide, by decide, by decide,
        by decide⟩
    have hloop := (removeLoop_reinserting_diverges fuel abcdefDom (by decide) (by decide)
      (by decide) (by decide)).1 (by decide)
    have he := h.earliest (show [1, 2].length < fuel by simp; omega)
    have hl := h.latest (show ([] : List Nat).length < fuel by simp; omega)
    simp only [List.head?_cons, Option.getD_some] at he
    have hpn : abcdefDom.parentNode 3 = some 0 := by decide
    simp only [replaceWholeText, he, hl, hpn, hloop]
  · have h4 : fuel = 0 ∨ fuel = 1 ∨ fuel = 2 ∨ fuel = 3 := by omega
    rcases h4 with rfl | rfl | rfl | rfl <;> rfl

/-- Every `removeChild` call recorded while a removal loop runs is an accepted removal from
the captured parent, when the handlers leave the trace alone. -/
theorem removeLoop_trace (env : Env) (p : Nat) (stop : Option Nat)
    (htr : ∀ c s, (env.onRemove c s).trace = s.trace) :
    ∀ (fuel : Nat) (n : Option Nat) (d d' : Dom),
      removeLoop env (some p) stop fuel n d = Except.ok d' →
      ∃ delta, d'.trace = d.trace ++ delta ∧ ∀ e ∈ delta, ∃ c, e = Event.childRemoved p c := by
  intro fuel
  induction fuel with
  | zero => intro n d d' h; simp [removeLoop] at h
  | succ fuel ih =>
    intro n d d' h
    cases n with
    | none =>
      simp only [removeLoop, Except.ok.injEq] at h
      exact ⟨[], by simp [h], by simp⟩
    | some m =>
      by_cases hg : some m ≠ stop ∧ d.isText m = true ∧ d.parentNode m = some p
      · rw [removeLoop, if_pos hg] at h
        obtain ⟨delta, hd, hall⟩ := ih _ _ _ h
        have hmp : d.parent m = some p := hg.2.2
        have ht : (removeChild env p m d).trace = d.trace ++ [Event.childRemoved p m] := by
          simp [removeChild, hmp, htr, Dom.unlink]
        refine ⟨Event.childRemoved p m :: delta, by rw [hd, ht]; simp, ?_⟩
        intro e he
        rcases List.mem_cons.1 he with rfl | he
        · exact ⟨m, rfl⟩
        · exact hall e he
      · rw [removeLoop, if_neg hg] at h
        simp only [Except.ok.injEq] at h
        exact ⟨[], by simp [h], by simp⟩

/-- The calls recorded by the tail of `replaceWholeText`, when it returns and the handlers
leave the trace alone: accepted removals from the captured parent, and the calls of
`setData`. -/
theorem replaceWholeTextTail_trace (env : Env) (p fuel x endText : Nat) (newText : List Char)
    (htr : ∀ c s, (env.onRemove c s).trace = s.trace)
    (htm : ∀ c s, (env.onModified c s).trace = s.trace)
    (d1 : Dom) (r : Option Nat) (d' : Dom)
    (h : replaceWholeTextTail env (some p) fuel x endText newText d1 = Except.ok (r, d')) :
    r = (if newText.isEmpty then none else some x) ∧
    ∃ delta, d'.trace = d1.trace ++ delta ∧
      ∀ e ∈ delta, (∃ c, e = Event.childRemoved p c) ∨ e.isContentChange = true ∨
        e.isRenderUpdate = true := by
  unfold replaceWholeTextTail at h
  have hloop2 : ∀ d2, (if x ≠ endText then
        removeLoop env (some p) (d1.nextSibling endText) fuel (d1.nextSibling x) d1
      else Except.ok d1) = Except.ok d2 →
      ∃ delta, d2.trace = d1.trace ++ delta ∧ ∀ e ∈ delta, ∃ c, e = Event.childRemoved p c := by
    intro d2 h2
    by_cases hx : x ≠ endText
    · rw [if_pos hx] at h2
      exact removeLoop_trace env p _ htr fuel _ d1 d2 h2
    · rw [if_neg hx] at h2
      simp only [Except.ok.injEq] at h2
      exact ⟨[], by simp [h2], by simp⟩
  cases h2 : (if x ≠ endText then
        removeLoop env (some p) (d1.nextSibling endText) fuel (d1.nextSibling x) d1
      else Except.ok d1) with
  | error f => rw [h2] at h; simp at h
  | ok d2 =>
    rw [h2] at h
    obtain ⟨delta, hd, hall⟩ := hloop2 d2 h2
    by_cases he : newText.isEmpty = true
    · simp only [he, if_true] at h ⊢
      by_cases hp2 : d2.parentNode x = some p
      · simp only [hp2, if_true] at h
        have h' := Except.ok.inj h
        have hr : none = r := congrArg Prod.fst h'
        have hd' : removeChild env p x d2 = d' := congrArg Prod.snd h'
        have hp2' : d2.parent x = some p := hp2
        refine ⟨hr.symm, delta ++ [Event.childRemoved p x], ?_, ?_⟩
        · rw [← hd']; simp [removeChild, hp2', htr, Dom.unlink, hd]
        · intro e hm
          rcases List.mem_append.1 hm with hm | hm
          · exact Or.inl (hall e hm)
          · exact Or.inl ⟨x, by simpa using hm⟩
      · simp only [hp2, if_false] at h
        have h' := Except.ok.inj h
        have hr : none = r := congrArg Prod.fst h'
        have hd' : d2 = d' := congrArg Prod.snd h'
        exact ⟨hr.symm, delta, by rw [← hd', hd], fun e hm => Or.inl (hall e hm)⟩
    · simp only [he, if_false] at h ⊢
      have h' := Except.ok.inj h
      have hr : some x = r := congrArg Prod.fst h'
      have hd' : setData env x newText d2 = d' := congrArg Prod.snd h'
      refine ⟨hr.symm, delta ++ ((if d2.renderer x
          then [Event.textRendererUpdated x 0 (d2.data x).length] else [])
          ++ [Event.contentModified x (d2.data x) newText]), ?_, ?_⟩
      · rw [← hd']; simp [setData, htm, hd]
      · intro e hm
        rcases List.mem_append.1 hm with hm | hm
        · exact Or.inl (hall e hm)
        · rcases List.mem_append.1 hm with hm | hm
          · split at hm
            · simp only [List.mem_singleton] at hm
              exact Or.inr (Or.inr (by rw [hm]; rfl))
            · simp at hm
          · simp only [List.mem_singleton] at hm
            exact Or.inr (Or.inl (by rw [hm]; rfl))

/-- The tail of `replaceWholeText` returns when the handlers never lengthen the captured
parent's child list and keep the parent links into it consistent. -/
theorem replaceWholeTextTail_terminates (env : Env) (p fuel x endText : Nat)
    (newText : List Char)
    (hshrink : ∀ c s, ((env.onRemove c s).children p).length ≤ (s.children p).length)
    (hkeep : ∀ c s, s.LinkedAt p → (env.onRemove c s).LinkedAt p)
    (d1 : Dom) (hl1 : d1.LinkedAt p) (hf : (d1.children p).length < fuel) :
    ∃ r d', replaceWholeTextTail env (some p) fuel x endText newText d1 = Except.ok (r, d') := by
  have hloop2 : ∃ d2, (if x ≠ endText then
        removeLoop env (some p) (d1.nextSibling endText) fuel (d1.nextSibling x) d1
      else Except.ok d1) = Except.ok d2 := by
    by_cases hx : x ≠ endText
    · obtain ⟨d2, hd2, _, _⟩ := removeLoop_terminates env p (d1.nextSibling endText) hshrink
        hkeep fuel (d1.nextSibling x) d1 hl1 hf
      exact ⟨d2, by rw [if_pos hx, hd2]⟩
    · exact ⟨d1, by rw [if_neg hx]⟩
  obtain ⟨d2, hd2⟩ := hloop2
  simp only [replaceWholeTextTail, hd2]
  by_cases he : newText.isEmpty = true
  · by_cases hp2 : d2.parentNode x = some p
    · exact ⟨none, removeChild env p x d2, by simp [he, hp2]⟩
    · exact ⟨none, d2, by simp [he, hp2]⟩
  · exact ⟨some x, setData env x newText d2, by simp [he]⟩

/-- The value of `replaceWholeText` on a node without a parent: no loop iterates. -/
theorem replaceWholeText_of_no_parent (env : Env) (d : Dom) (x : Nat) (newText : List Char)
    (fuel : Nat) (hp : d.parent x = none) :
    replaceWholeText env (fuel + 1) x newText d =
      Except.ok (if newText.isEmpty then (none, d) else (some x, setData env x newText d)) := by
  obtain ⟨he, hl, -⟩ := scans_of_no_parent hp fuel
  have hpn : d.parentNode x = none := hp
  have hloop : removeLoop env none (some x) (fuel + 1) (some x) d = Except.ok d :=
    removeLoop_done env none (some x) fuel d (some x) (Or.inr rfl)
  simp only [replaceWholeText, he, hl, hpn, hloop, replaceWholeTextTail, ne_eq,
    not_true_eq_false, if_false]
  by_cases h : newText.isEmpty = true <;> simp [h]

/-- C12 (amended): for a node without a parent and any handlers, and for a node with a
parent under removal handlers that never lengthen the parent's child list and keep the
parent links into it consistent, `replaceWholeText` returns with enough fuel, without a
fault; it returns none or the node; and, the handlers leaving the trace alone, no
`removeChild` call it makes is rejected and each is made on the node's captured
parent. -/
theorem replaceWholeText_total (env : Env) (d : Dom) (p x : Nat) (a run1 run2 b : List Nat)
    (newText : List Char) (fuel : Nat)
    (htr : ∀ c s, (env.onRemove c s).trace = s.trace)
    (htm : ∀ c s, (env.onModified c s).trace = s.trace)
    (hcase : (d.parent x = none ∧ 0 < fuel) ∨
      (d.RunAt p x a run1 run2 b ∧ d.LinkedAt p ∧
        (∀ c s, ((env.onRemove c s).children p).length ≤ (s.children p).length) ∧
        (∀ c s, s.LinkedAt p → (env.onRemove c s).LinkedAt p) ∧
        (d.children p).length < fuel)) :
    ∃ r d' delta, replaceWholeText env fuel x newText d = Except.ok (r, d') ∧
      (r = none ∨ r = some x) ∧ d'.trace = d.trace ++ delta ∧
      ∀ e ∈ delta, e.isRemoveRejected = false ∧
        ∀ q c, e = Event.childRemoved q c → d.parent x = some q := by
  rcases hcase with ⟨hp, hf⟩ | ⟨h, hlink, hshrink, hkeep, hfuel⟩
  · obtain ⟨k, rfl⟩ : ∃ k, fuel = k + 1 := ⟨fuel - 1, by omega⟩
    have hval := replaceWholeText_of_no_parent env d x newText k hp
    by_cases he : newText.isEmpty = true
    · rw [if_pos he] at hval
      exact ⟨none, d, [], hval, Or.inl rfl, by simp, by simp⟩
    · rw [if_neg he] at hval
      refine ⟨some x, _, (if d.renderer x
          then [Event.textRendererUpdated x 0 (d.data x).length] else [])
          ++ [Event.contentModified x (d.data x) newText], hval, Or.inr rfl,
          by simp [setData, htm], ?_⟩
      intro e hm
      rcases List.mem_append.1 hm with hm | hm
      · split at hm
        · simp only [List.mem_singleton] at hm
          subst hm
          exact ⟨rfl, fun q c hc => by cases hc⟩
        · simp at hm
      · simp only [List.mem_singleton] at hm
        subst hm
        exact ⟨rfl, fun q c hc => by cases hc⟩
  · have hlen : (a ++ run1 ++ x :: run2 ++ b).length < fuel := by
      rw [← h.children_eq]; exact hfuel
    have hf1 : run1.length < fuel := by simp at hlen; omega
    have hf2 : run2.length < fuel := by simp at hlen; omega
    obtain ⟨d1, hd1, hl1, hlen1⟩ := removeLoop_terminates env p (some x) hshrink hkeep fuel
      (some (run1.head?.getD x)) d hlink hfuel
    obtain ⟨r, d', htail⟩ := replaceWholeTextTail_terminates env p fuel x
      (run2.getLast?.getD x) newText hshrink hkeep d1 hl1 (by omega)
    obtain ⟨delta1, ht1, hall1⟩ := removeLoop_trace env p (some x) htr fuel _ d d1 hd1
    obtain ⟨hr, delta2, ht2, hall2⟩ := replaceWholeTextTail_trace env p fuel x
      (run2.getLast?.getD x) newText htr htm d1 r d' htail
    have hval : replaceWholeText env fuel x newText d = Except.ok (r, d') := by
      simp only [replaceWholeText, h.earliest hf1, h.latest hf2, Dom.parentNode,
        h.parent_self, hd1, htail]
    refine ⟨r, d', delta1 ++ delta2, hval, ?_, by rw [ht2, ht1]; simp, ?_⟩
    · rw [hr]; split
      · exact Or.inl rfl
      · exact Or.inr rfl
    · intro e hm
      have hP : (∃ c, e = Event.childRemoved p c) ∨ e.isContentChange = true ∨
          e.isRenderUpdate = true := by
        rcases List.mem_append.1 hm with hm | hm
        · exact Or.inl (hall1 e hm)
        · exact hall2 e hm
      rcases hP with ⟨c, rfl⟩ | hP | hP
      · refine ⟨rfl, fun q c' hc => ?_⟩
        have hq : p = q := by injection hc
        rw [← hq]; exact h.parent_self
      · refine ⟨?_, fun q c hc => ?_⟩
        · cases e <;> simp_all [Event.isContentChange, Event.isRemoveRejected]
        · subst hc; simp [Event.isContentChange] at hP
      · refine ⟨?_, fun q c hc => ?_⟩
        · cases e <;> simp_all [Event.isRenderUpdate, Event.isRemoveRejected]
        · subst hc; simp [Event.isRenderUpdate] at hP

/-- C12 (amended) evaluated under the handler that deletes the middle node when the first
sibling is removed. -/
theorem replaceWholeText_total_witness :
    ∃ r d' delta, replaceWholeText (Env.onRemoveOf 1 (fun s => s.detach 2)) 4 2 ['X', 'Y']
        abcdefDom = Except.ok (r, d') ∧
      (r = none ∨ r = some 2) ∧ d'.trace = abcdefDom.trace ++ delta ∧
      ∀ e ∈ delta, e.isRemoveRejected = false ∧
        ∀ q c, e = Event.childRemoved q c → abcdefDom.parent 2 = some q :=
  replaceWholeText_total (Env.onRemoveOf 1 (fun s => s.detach 2)) abcdefDom
    0 2 [] [1] [3] [] ['X', 'Y'] 4
    (fun c s => by
      by_cases hc : c = 1
      · simp only [Env.onRemoveOf, hc, if_true, Dom.detach]; split <;> rfl
      · simp [Env.onRemoveOf, hc])
    (fun _ _ => rfl)
    (Or.inr ⟨⟨by decide, by decide, by decide, by decide, by decide, by decide, by decide,
        by decide⟩,
      ofChildren_linkedAt _,
      fun c s => by
        by_cases hc : c = 1
        · simp only [Env.onRemoveOf, hc, if_true]; exact detach_length_le s 2 0
        · simp [Env.onRemoveOf, hc],
      fun c s hs => by
        by_cases hc : c = 1
        · simp only [Env.onRemoveOf, hc, if_true]; exact detach_linkedAt 2 hs
        · simpa [Env.onRemoveOf, hc] using hs,
      by decide⟩)

end WebCore
